import Mathlib

/-! Keyboard focus traversal (juce_KeyboardFocusTraverser.cpp)

A shallow embedding of `KeyboardFocusHelpers` and `KeyboardFocusTraverser`.
Components are identified by their address.  The component tree and the raw
`ComponentTraverser` are owned by code outside this file, so they enter as
parameters.  A null `Component*` result is `none`.  `findComponent` recurses
along whatever the raw traverser returns, so it carries a fuel argument: the
outer `Option` is `none` exactly when the fuel ran out before the walk ended.
-/

namespace juce

/-- A component, identified by its address. -/
abbrev Component := Nat

/-- The raw traverser interface (`ComponentTraverser`): the three virtual
operations this file calls. -/
structure ComponentTraverser where
  getNextComponent : Component → Option Component
  getPreviousComponent : Component → Option Component
  getDefaultComponent : Component → Option Component

/-- The operations of `Component` this file calls, for every component. -/
structure ComponentTree where
  getWantsKeyboardFocus : Component → Bool
  isParentOf : Component → Component → Bool
  findFocusContainer : Component → Component
  createFocusTraverser : Component → Option ComponentTraverser

/-- The tags `Forwards` and `Backwards`. -/
inductive Direction where
  | Forwards
  | Backwards
  deriving DecidableEq, Repr

namespace KeyboardFocusHelpers

/-- The two overloads of `traverse`. -/
def traverse (traverser : ComponentTraverser) (currentComponent : Component) :
    Direction → Option Component
  | Direction.Forwards => traverser.getNextComponent currentComponent
  | Direction.Backwards => traverser.getPreviousComponent currentComponent

/-- The recursive walk `findComponent`; `none` when the fuel is used up. -/
def findComponent (tree : ComponentTree) (traverser : ComponentTraverser) :
    Nat → Component → Component → Direction → Option (Option Component)
  | 0, _, _, _ => none
  | fuel + 1, currentComponent, parentComponent, dir =>
    match traverse traverser currentComponent dir with
    | some comp =>
      if tree.getWantsKeyboardFocus comp && tree.isParentOf parentComponent comp then
        some (some comp)
      else
        findComponent tree traverser fuel comp parentComponent dir
    | none => some none

/-- The helper `getComponent`. -/
def getComponent (tree : ComponentTree) (fuel : Nat) (current : Component)
    (dir : Direction) : Option (Option Component) :=
  match tree.createFocusTraverser current with
  | some focusTraverser =>
    findComponent tree focusTraverser fuel current (tree.findFocusContainer current) dir
  | none => some none

end KeyboardFocusHelpers

namespace KeyboardFocusTraverser

open KeyboardFocusHelpers

/-- The method `KeyboardFocusTraverser::getNextComponent`. -/
def getNextComponent (tree : ComponentTree) (fuel : Nat) (current : Component) :
    Option (Option Component) :=
  getComponent tree fuel current Direction.Forwards

/-- The method `KeyboardFocusTraverser::getPreviousComponent`. -/
def getPreviousComponent (tree : ComponentTree) (fuel : Nat) (current : Component) :
    Option (Option Component) :=
  getComponent tree fuel current Direction.Backwards

/-- The method `KeyboardFocusTraverser::getDefaultComponent`. -/
def getDefaultComponent (tree : ComponentTree) (fuel : Nat) (parentComponent : Component) :
    Option (Option Component) :=
  match tree.createFocusTraverser parentComponent with
  | some focusTraverser =>
    match focusTraverser.getDefaultComponent parentComponent with
    | some defaultComponent =>
      if tree.getWantsKeyboardFocus defaultComponent then
        some (some defaultComponent)
      else
        findComponent tree focusTraverser fuel defaultComponent parentComponent
          Direction.Forwards
    | none => some none
  | none => some none

/-- The `while (current != nullptr)` loop of `getAllComponents`: `components`
is the vector built so far, the first `Nat` bounds the iterations. -/
def getAllLoop (tree : ComponentTree) (focusTraverser : ComponentTraverser) (fuel : Nat)
    (parentComponent : Component) :
    Nat → Option Component → List Component → Option (List Component)
  | _, none, components => some components
  | 0, some _, _ => none
  | n + 1, some current, components =>
    match findComponent tree focusTraverser fuel current parentComponent
        Direction.Forwards with
    | some next =>
      getAllLoop tree focusTraverser fuel parentComponent n next (components ++ [current])
    | none => none

/-- The method `KeyboardFocusTraverser::getAllComponents`. -/
def getAllComponents (tree : ComponentTree) (fuel : Nat) (parentComponent : Component) :
    Option (List Component) :=
  match tree.createFocusTraverser parentComponent with
  | some focusTraverser =>
    match getDefaultComponent tree fuel parentComponent with
    | some current =>
      getAllLoop tree focusTraverser fuel parentComponent fuel current []
    | none => none
  | none => some []

end KeyboardFocusTraverser

/-! ## Raw orders given by a list -/

/-- The nodes that follow the first occurrence of `x` in `L`. -/
def nodesAfter : List Component → Component → List Component
  | [], _ => []
  | y :: ys, x => if y = x then ys else nodesAfter ys x

/-- The element after `x` in `L`, if any. -/
def nextIn (L : List Component) (x : Component) : Option Component :=
  (nodesAfter L x).head?

/-- The element before `x` in `L`, if any. -/
def prevIn (L : List Component) (x : Component) : Option Component :=
  (nodesAfter L.reverse x).head?

/-- A raw traverser is list-ordered over `L`: `L` has no duplicates, the raw
next of `x` is the element after `x` in `L` and the raw previous the element
before it. -/
def ListOrdered (t : ComponentTraverser) (L : List Component) : Prop :=
  L.Nodup ∧ (∀ x, t.getNextComponent x = nextIn L x) ∧
    (∀ x, t.getPreviousComponent x = prevIn L x)

/-- The list-ordered traverser over `L` with raw default `d`. -/
def listTraverser (L : List Component) (d : Option Component) : ComponentTraverser where
  getNextComponent := nextIn L
  getPreviousComponent := prevIn L
  getDefaultComponent := fun _ => d

/-- The filter of the walk: wants keyboard focus and lies inside `B`. -/
def eligible (tree : ComponentTree) (B : Component) (n : Component) : Bool :=
  tree.getWantsKeyboardFocus n && tree.isParentOf B n

/-- A tree over components `0..`: `wants` lists the focus-eligible ones,
`inside` the pairs (container, node) of `isParentOf`, every component has
focus container `container` and the traverser `t`. -/
def mkTree (wants : List Component) (inside : List (Component × Component))
    (container : Component) (t : Option ComponentTraverser) : ComponentTree where
  getWantsKeyboardFocus := fun n => decide (n ∈ wants)
  isParentOf := fun b n => decide ((b, n) ∈ inside)
  findFocusContainer := fun _ => container
  createFocusTraverser := fun _ => t

/-- The nodes visited by iterating a navigation step from `start` until it
yields none; `none` when a step or the iteration runs out of fuel. -/
def iterateNext (step : Component → Option (Option Component)) :
    Nat → Option Component → Option (List Component)
  | _, none => some []
  | 0, some _ => none
  | n + 1, some c =>
    match step c with
    | some next => (iterateNext step n next).map (fun rest => c :: rest)
    | none => none

/-- The raw walk from `c` in direction `dir` reaches its end (a raw step
yielding none) within `n` steps. -/
def rawWalkEnds (t : ComponentTraverser) (dir : Direction) : Nat → Component → Bool
  | 0, _ => false
  | n + 1, c =>
    match KeyboardFocusHelpers.traverse t c dir with
    | some y => rawWalkEnds t dir n y
    | none => true

/-- A raw order of four nodes, none of them the raw default. -/
def demoTraverser : ComponentTraverser := listTraverser [1, 2, 3, 4] none

/-- Nodes 1, 3 and 4 want keyboard focus; container 0 holds 1 and 4 only. -/
def demoTree : ComponentTree := mkTree [1, 3, 4] [(0, 1), (0, 4)] 0 (some demoTraverser)

/-- The raw order 1, 2, 3, 4 with raw default 1, its head. -/
def headTraverser : ComponentTraverser := listTraverser [1, 2, 3, 4] (some 1)

/-- Container 0 holds all four nodes; 2 and 4 want keyboard focus. -/
def headTree : ComponentTree :=
  mkTree [2, 4] [(0, 1), (0, 2), (0, 3), (0, 4)] 0 (some headTraverser)

/-- The raw order 1, 2 whose raw default is its last node 2. -/
def tailTraverser : ComponentTraverser := listTraverser [1, 2] (some 2)

/-- Container 0 holds 1 and 2, both want keyboard focus; raw default 2. -/
def tailTree : ComponentTree := mkTree [1, 2] [(0, 1), (0, 2)] 0 (some tailTraverser)

/-- The raw order 1, 2 whose raw default is its head 1. -/
def outsideTraverser : ComponentTraverser := listTraverser [1, 2] (some 1)

/-- Nodes 1 and 2 want keyboard focus, container 0 holds 2 only: the raw
default 1 lies outside the container. -/
def outsideTree : ComponentTree := mkTree [1, 2] [(0, 2)] 0 (some outsideTraverser)

/-- The raw order is the single node 1, which is also the raw default. -/
def strayTraverser : ComponentTraverser := listTraverser [1] (some 1)

/-- Node 1 wants keyboard focus; container 0 holds no node at all. -/
def strayTree : ComponentTree := mkTree [1] [] 0 (some strayTraverser)

/-- Container 0 holds 1 and 2, only 1 wants keyboard focus; the raw order is
1, 2 with raw default 2, after the one eligible node. -/
def lateTree : ComponentTree := mkTree [1] [(0, 1), (0, 2)] 0 (some tailTraverser)

/-- A raw traverser that does not advance: every raw step from `x` yields `x`. -/
def selfTraverser : ComponentTraverser where
  getNextComponent := fun x => some x
  getPreviousComponent := fun x => some x
  getDefaultComponent := fun _ => none

/-- Container 0 holds node 1, which wants keyboard focus. -/
def selfTree : ComponentTree := mkTree [1] [(0, 1)] 0 (some selfTraverser)

/-- The raw order 1, 2, 3 with raw default 1. -/
def quietTraverser : ComponentTraverser := listTraverser [1, 2, 3] (some 1)

/-- Container 0 holds 1 and 2, neither wants keyboard focus; node 3 wants it
but lies outside container 0. -/
def quietTree : ComponentTree := mkTree [3] [(0, 1), (0, 2)] 0 (some quietTraverser)

/-- Container 0 holds the raw order 1, 2, 3, 4 (raw default 1); only node 3
wants keyboard focus. -/
def singleTree : ComponentTree :=
  mkTree [3] [(0, 1), (0, 2), (0, 3), (0, 4)] 0 (some headTraverser)

/-- The walk `findComponent` with a counter: the second component is the
number of raw steps taken, one per call of `findComponent`. -/
def findComponentSteps (tree : ComponentTree) (traverser : ComponentTraverser) :
    Nat → Component → Component → Direction → Option (Option Component × Nat)
  | 0, _, _, _ => none
  | fuel + 1, currentComponent, parentComponent, dir =>
    match KeyboardFocusHelpers.traverse traverser currentComponent dir with
    | some comp =>
      if tree.getWantsKeyboardFocus comp && tree.isParentOf parentComponent comp then
        some (some comp, 1)
      else
        match findComponentSteps tree traverser fuel comp parentComponent dir with
        | some (r, k) => some (r, k + 1)
        | none => none
    | none => some (none, 1)

/-- Node 1 wants keyboard focus inside container 0; no component has a
focus traverser. -/
def bareTree : ComponentTree := mkTree [1] [(0, 1)] 0 none

/-- Container 20 holds nodes 1 and 2 and is nested in container 10, which
also holds 3 and 4; nodes 1, 2 and 4 want keyboard focus; one raw order
1, 2, 3, 4. -/
def nestedTree : ComponentTree :=
  mkTree [1, 2, 4] [(20, 1), (20, 2), (10, 20), (10, 1), (10, 2), (10, 3), (10, 4)] 10
    (some headTraverser)

/-- Modelled from the spec: `Component::isParentOf`, which is not under src/.
Section 4.2 says a node is contained within the boundary container when it
is the container itself or one of its descendants; `descendants` lists the
descendants of each component. -/
def isParentOfSpec (descendants : Component → List Component)
    (container node : Component) : Bool :=
  node == container || decide (node ∈ descendants container)

/-- A tree whose containment test is `isParentOfSpec`: container 0 has the
descendants 1 and 2 and wants keyboard focus itself; the raw order is 1, 0, 2. -/
def reflexiveTree : ComponentTree where
  getWantsKeyboardFocus := fun n => decide (n ∈ [0])
  isParentOf := isParentOfSpec (fun b => if b = 0 then [1, 2] else [])
  findFocusContainer := fun _ => 0
  createFocusTraverser := fun _ => some (listTraverser [1, 0, 2] none)

/-- One raw order 1, 2, 3 for two containers: the raw default of container 20
is node 2, that of any other container is node 1. -/
def twoDefaultTraverser : ComponentTraverser where
  getNextComponent := nextIn [1, 2, 3]
  getPreviousComponent := prevIn [1, 2, 3]
  getDefaultComponent := fun parent => if parent = 20 then some 2 else some 1

/-- Container 20 holds nodes 1 and 2 and is nested in container 10, which
also holds 3; nodes 1 and 2 want keyboard focus. -/
def twoDefaultTree : ComponentTree :=
  mkTree [1, 2] [(20, 1), (20, 2), (10, 20), (10, 1), (10, 2), (10, 3)] 10
    (some twoDefaultTraverser)

/-- Container 20 holds node 2 and is nested in container 10, which also holds
1 and 3; nodes 2 and 3 want keyboard focus. -/
def twoDefaultCleanTree : ComponentTree :=
  mkTree [2, 3] [(20, 2), (10, 20), (10, 1), (10, 2), (10, 3)] 10
    (some twoDefaultTraverser)

/-- The raw order 1, 2, 3, 4 whose raw default is node 2, inside the order. -/
def midTraverser : ComponentTraverser := listTraverser [1, 2, 3, 4] (some 2)

/-- Container 0 holds all four nodes; 2 and 4 want keyboard focus; node 1,
before the raw default 2, does not. -/
def midTree : ComponentTree :=
  mkTree [2, 4] [(0, 1), (0, 2), (0, 3), (0, 4)] 0 (some midTraverser)

/-! ## Lemmas on list orders -/

theorem nodesAfter_suffix (L : List Component) (x : Component) : nodesAfter L x <:+ L := by
  induction L with
  | nil => simp [nodesAfter]
  | cons y ys ih =>
    unfold nodesAfter
    split
    · exact List.suffix_cons y ys
    · exact ih.trans (List.suffix_cons y ys)

theorem nodesAfter_length_le (L : List Component) (x : Component) :
    (nodesAfter L x).length ≤ L.length :=
  (nodesAfter_suffix L x).length_le

theorem mem_of_mem_nodesAfter {L : List Component} {x y : Component}
    (h : y ∈ nodesAfter L x) : y ∈ L :=
  (nodesAfter_suffix L x).subset h

theorem nodesAfter_nodup {L : List Component} (x : Component) (hL : L.Nodup) :
    (nodesAfter L x).Nodup :=
  hL.sublist (nodesAfter_suffix L x).sublist

theorem nodesAfter_of_not_mem {L : List Component} {x : Component} (h : x ∉ L) :
    nodesAfter L x = [] := by
  induction L with
  | nil => rfl
  | cons y ys ih =>
    have hy : y ≠ x := fun e => h (by simp [e])
    have hx : x ∉ ys := fun e => h (by simp [e])
    simp [nodesAfter, hy, ih hx]

theorem nodesAfter_append_cons {pre post : List Component} {c : Component} (h : c ∉ pre) :
    nodesAfter (pre ++ c :: post) c = post := by
  induction pre with
  | nil => simp [nodesAfter]
  | cons y ys ih =>
    have hy : y ≠ c := fun e => h (by simp [e])
    have hc : c ∉ ys := fun e => h (by simp [e])
    simp [nodesAfter, hy, ih hc]

theorem not_mem_nodesAfter_self {L : List Component} (x : Component) (hL : L.Nodup) :
    x ∉ nodesAfter L x := by
  induction L with
  | nil => simp [nodesAfter]
  | cons y ys ih =>
    rw [List.nodup_cons] at hL
    unfold nodesAfter
    split
    · rename_i e
      subst e
      exact hL.1
    · exact ih hL.2

theorem nodesAfter_nodesAfter {L : List Component} {x y : Component} (hL : L.Nodup)
    (hy : y ∈ nodesAfter L x) : nodesAfter (nodesAfter L x) y = nodesAfter L y := by
  induction L with
  | nil => simp [nodesAfter] at hy
  | cons z zs ih =>
    rw [List.nodup_cons] at hL
    by_cases hzx : z = x
    · have h1 : nodesAfter (z :: zs) x = zs := by simp [nodesAfter, hzx]
      rw [h1] at hy ⊢
      have hzy : z ≠ y := fun e => hL.1 (e ▸ hy)
      simp [nodesAfter, hzy]
    · have h1 : nodesAfter (z :: zs) x = nodesAfter zs x := by simp [nodesAfter, hzx]
      rw [h1] at hy ⊢
      have hzy : z ≠ y := fun e => hL.1 (e ▸ mem_of_mem_nodesAfter hy)
      rw [ih hL.2 hy]
      simp [nodesAfter, hzy]

theorem nodesAfter_filter (p : Component → Bool) (L : List Component) {x : Component}
    (hx : p x = true) : nodesAfter (L.filter p) x = (nodesAfter L x).filter p := by
  induction L with
  | nil => simp [nodesAfter]
  | cons z zs ih =>
    by_cases hzx : z = x
    · subst hzx
      simp [List.filter_cons, hx, nodesAfter]
    · by_cases hz : p z = true
      · simp [List.filter_cons, hz, nodesAfter, hzx, ih]
      · simp [List.filter_cons, hz, nodesAfter, hzx, ih]

theorem filter_eq_cons_of_find {p : Component → Bool} {L : List Component} {y : Component}
    (h : L.find? p = some y) : L.filter p = y :: (nodesAfter L y).filter p := by
  induction L with
  | nil => simp at h
  | cons z zs ih =>
    by_cases hz : p z = true
    · rw [List.find?_cons_of_pos _ hz] at h
      cases h
      simp [List.filter_cons, hz, nodesAfter]
    · rw [List.find?_cons_of_neg _ hz] at h
      have hy : p y = true := List.find?_some h
      have hzy : z ≠ y := fun e => hz (e ▸ hy)
      simp [List.filter_cons, hz, nodesAfter, hzy, ih h]

/-! ## The walk over a list order -/

open KeyboardFocusHelpers KeyboardFocusTraverser

/-- When the raw step in direction `dir` is "next in `M`", the walk from `c`
returns the first eligible node after `c` in `M`, given more fuel than nodes
after `c`. -/
theorem findComponent_of_step (tree : ComponentTree) (t : ComponentTraverser)
    (dir : Direction) {M : List Component} (hM : M.Nodup)
    (hstep : ∀ x, traverse t x dir = nextIn M x) (B : Component) :
    ∀ (fuel : Nat) (c : Component), (nodesAfter M c).length < fuel →
      findComponent tree t fuel c B dir = some ((nodesAfter M c).find? (eligible tree B)) := by
  intro fuel
  induction fuel with
  | zero => intro c h; omega
  | succ n ih =>
    intro c h
    unfold findComponent
    rw [hstep c]
    unfold nextIn
    cases hc : nodesAfter M c with
    | nil => simp
    | cons y rest =>
      have hy : y ∈ nodesAfter M c := by simp [hc]
      have hrest : nodesAfter M y = rest := by
        rw [← nodesAfter_nodesAfter hM hy, hc]
        simp [nodesAfter]
      rw [hc] at h
      simp only [List.head?_cons]
      by_cases he : eligible tree B y = true
      · have he' := he
        unfold eligible at he'
        simp [he', List.find?_cons_of_pos _ he]
      · have he' := he
        unfold eligible at he'
        rw [List.find?_cons_of_neg _ he, if_neg he', ih y (by rw [hrest]; simpa using h), hrest]

theorem traverse_forwards_of_listOrdered {t : ComponentTraverser} {L : List Component}
    (h : ListOrdered t L) (x : Component) :
    traverse t x Direction.Forwards = nextIn L x := h.2.1 x

theorem traverse_backwards_of_listOrdered {t : ComponentTraverser} {L : List Component}
    (h : ListOrdered t L) (x : Component) :
    traverse t x Direction.Backwards = nextIn L.reverse x := h.2.2 x

theorem listTraverser_listOrdered {L : List Component} (d : Option Component)
    (hL : L.Nodup) : ListOrdered (listTraverser L d) L :=
  ⟨hL, fun _ => rfl, fun _ => rfl⟩

theorem nodesAfter_of_split {L pre post : List Component} {c : Component} (hL : L.Nodup)
    (h : L = pre ++ c :: post) :
    nodesAfter L c = post ∧ nodesAfter L.reverse c = pre.reverse := by
  subst h
  have hpre : c ∉ pre := by
    intro hc
    have := (List.nodup_append.1 hL).2.2 hc (List.mem_cons_self c post)
    exact this
  have hpost : c ∉ post.reverse := by
    intro hc
    have h2 := (List.nodup_append.1 hL).2.1
    rw [List.nodup_cons] at h2
    exact h2.1 (List.mem_reverse.1 hc)
  refine ⟨nodesAfter_append_cons hpre, ?_⟩
  have hr : (pre ++ c :: post).reverse = post.reverse ++ c :: pre.reverse := by simp
  rw [hr]
  exact nodesAfter_append_cons hpost

theorem nodesAfter_length_lt {N : List Component} (y : Component) (hN : N ≠ []) :
    (nodesAfter N y).length < N.length := by
  cases N with
  | nil => exact absurd rfl hN
  | cons z zs =>
    unfold nodesAfter
    split
    · simp
    · have := nodesAfter_length_le zs y
      simp only [List.length_cons]
      omega

/-- Under a list order `M`, the loop of `getAllComponents` entered at `c`
appends `c` and then every eligible node after `c`, in order. -/
theorem getAllLoop_of_step (tree : ComponentTree) (t : ComponentTraverser)
    {M : List Component} (hM : M.Nodup)
    (hstep : ∀ x, traverse t x Direction.Forwards = nextIn M x) (P : Component)
    (fuel : Nat) (hfuel : M.length < fuel) :
    ∀ (n : Nat) (c : Component) (acc : List Component), (nodesAfter M c).length < n →
      getAllLoop tree t fuel P n (some c) acc
        = some (acc ++ c :: (nodesAfter M c).filter (eligible tree P)) := by
  intro n
  induction n with
  | zero => intro c acc h; omega
  | succ n ih =>
    intro c acc h
    have hw := findComponent_of_step tree t Direction.Forwards hM hstep P fuel c
      (lt_of_le_of_lt (nodesAfter_length_le M c) hfuel)
    unfold getAllLoop
    rw [hw]
    cases hf : (nodesAfter M c).find? (eligible tree P) with
    | none =>
      have hnil : (nodesAfter M c).filter (eligible tree P) = [] := by
        rw [List.filter_eq_nil_iff]
        exact List.find?_eq_none.1 hf
      simp [getAllLoop, hnil]
    | some y =>
      have hy : y ∈ nodesAfter M c := List.mem_of_find?_eq_some hf
      have hne : nodesAfter M c ≠ [] := List.ne_nil_of_mem hy
      have hlen : (nodesAfter M y).length < n := by
        have := nodesAfter_length_lt y hne
        rw [nodesAfter_nodesAfter hM hy] at this
        omega
      simp only []
      rw [ih y (acc ++ [c]) hlen, filter_eq_cons_of_find hf, nodesAfter_nodesAfter hM hy]
      simp

/-- The value of `getDefaultComponent` under a list order. -/
theorem getDefaultComponent_of_listOrdered (tree : ComponentTree) (t : ComponentTraverser)
    {L : List Component} (hord : ListOrdered t L) (P : Component)
    (ht : tree.createFocusTraverser P = some t) (fuel : Nat) (hfuel : L.length < fuel) :
    getDefaultComponent tree fuel P
      = some (match t.getDefaultComponent P with
          | none => none
          | some d =>
            if tree.getWantsKeyboardFocus d then some d
            else (nodesAfter L d).find? (eligible tree P)) := by
  unfold getDefaultComponent
  simp only [ht]
  cases hd : t.getDefaultComponent P with
  | none => rfl
  | some d =>
    by_cases hw : tree.getWantsKeyboardFocus d = true
    · simp [hw]
    · have h := findComponent_of_step tree t Direction.Forwards hord.1
        (traverse_forwards_of_listOrdered hord) P fuel d
        (lt_of_le_of_lt (nodesAfter_length_le L d) hfuel)
      simp [hw, h]

/-- The value of `getAllComponents` under a list order: the raw default when
it wants keyboard focus, then the eligible nodes after the raw default. -/
theorem getAllComponents_of_listOrdered (tree : ComponentTree) (t : ComponentTraverser)
    {L : List Component} (hord : ListOrdered t L) (P : Component)
    (ht : tree.createFocusTraverser P = some t) (fuel : Nat) (hfuel : L.length < fuel) :
    getAllComponents tree fuel P
      = some (match t.getDefaultComponent P with
          | none => []
          | some d =>
            (if tree.getWantsKeyboardFocus d then [d] else [])
              ++ (nodesAfter L d).filter (eligible tree P)) := by
  have hdef := getDefaultComponent_of_listOrdered tree t hord P ht fuel hfuel
  have hloop := getAllLoop_of_step tree t hord.1 (traverse_forwards_of_listOrdered hord) P
    fuel hfuel fuel
  unfold getAllComponents
  rw [ht]
  simp only []
  rw [hdef]
  cases hd : t.getDefaultComponent P with
  | none => simp [getAllLoop]
  | some d =>
    by_cases hw : tree.getWantsKeyboardFocus d = true
    · simp only [hw, if_true]
      rw [hloop d [] (lt_of_le_of_lt (nodesAfter_length_le L d) hfuel)]
      simp
    · simp only [hw]
      cases hf : (nodesAfter L d).find? (eligible tree P) with
      | none =>
        have hnil : (nodesAfter L d).filter (eligible tree P) = [] := by
          rw [List.filter_eq_nil_iff]
          exact List.find?_eq_none.1 hf
        simp [getAllLoop, hnil]
      | some y =>
        have hy : y ∈ nodesAfter L d := List.mem_of_find?_eq_some hf
        simp only [Bool.false_eq_true, if_false]
        rw [hloop y [] (lt_of_le_of_lt (nodesAfter_length_le L y) hfuel),
          filter_eq_cons_of_find hf, nodesAfter_nodesAfter hord.1 hy]

/-- The values of `getNextComponent` and `getPreviousComponent` at a node
whose traverser is list-ordered over `L` and whose focus container is `P`. -/
theorem getComponent_of_listOrdered (tree : ComponentTree) (tX : ComponentTraverser)
    {L : List Component} (hord : ListOrdered tX L) (X P : Component)
    (htX : tree.createFocusTraverser X = some tX) (hP : tree.findFocusContainer X = P)
    (fuel : Nat) (hfuel : L.length < fuel) :
    getNextComponent tree fuel X = some ((nodesAfter L X).find? (eligible tree P)) ∧
    getPreviousComponent tree fuel X
      = some ((nodesAfter L.reverse X).find? (eligible tree P)) := by
  constructor
  · unfold getNextComponent getComponent
    simp only [htX, hP]
    exact findComponent_of_step tree tX Direction.Forwards hord.1
      (traverse_forwards_of_listOrdered hord) P fuel X
      (lt_of_le_of_lt (nodesAfter_length_le L X) hfuel)
  · unfold getPreviousComponent getComponent
    simp only [htX, hP]
    exact findComponent_of_step tree tX Direction.Backwards (List.nodup_reverse.2 hord.1)
      (traverse_backwards_of_listOrdered hord) P fuel X
      (lt_of_le_of_lt (nodesAfter_length_le L.reverse X) (by simpa using hfuel))

/-- Under a list order, `getAllComponents` is its first element (the result
of `getDefaultComponent`) followed by the eligible nodes after it. -/
theorem getAllComponents_shape (tree : ComponentTree) (t : ComponentTraverser)
    {L : List Component} (hord : ListOrdered t L) (P : Component)
    (ht : tree.createFocusTraverser P = some t) (fuel : Nat) (hfuel : L.length < fuel) :
    ∃ start, getDefaultComponent tree fuel P = some start ∧
      getAllComponents tree fuel P
        = some (match start with
            | none => []
            | some g => g :: (nodesAfter L g).filter (eligible tree P)) := by
  obtain ⟨start, hstart⟩ : ∃ s, getDefaultComponent tree fuel P = some s :=
    ⟨_, getDefaultComponent_of_listOrdered tree t hord P ht fuel hfuel⟩
  refine ⟨start, hstart, ?_⟩
  unfold getAllComponents
  simp only [ht, hstart]
  cases start with
  | none => simp [getAllLoop]
  | some g =>
    rw [getAllLoop_of_step tree t hord.1 (traverse_forwards_of_listOrdered hord) P fuel hfuel
      fuel g [] (lt_of_le_of_lt (nodesAfter_length_le L g) hfuel)]
    simp

theorem nodup_enum {L : List Component} (hL : L.Nodup) (p : Component → Bool)
    (g : Component) : (g :: (nodesAfter L g).filter p).Nodup := by
  rw [List.nodup_cons]
  constructor
  · intro h
    exact not_mem_nodesAfter_self g hL (List.mem_filter.1 h).1
  · exact (nodesAfter_nodup g hL).filter _

theorem nextIn_enum {L : List Component} (hL : L.Nodup) (p : Component → Bool)
    (g X : Component) (hX : X ∈ g :: (nodesAfter L g).filter p) :
    nextIn (g :: (nodesAfter L g).filter p) X = (nodesAfter L X).find? p := by
  unfold nextIn
  by_cases hgX : g = X
  · subst hgX
    simp [nodesAfter]
  · have hXF : X ∈ (nodesAfter L g).filter p :=
      (List.mem_cons.1 hX).resolve_left (fun e => hgX e.symm)
    have hpX : p X = true := (List.mem_filter.1 hXF).2
    have hXS : X ∈ nodesAfter L g := (List.mem_filter.1 hXF).1
    have h1 : nodesAfter (g :: (nodesAfter L g).filter p) X
        = nodesAfter ((nodesAfter L g).filter p) X := by simp [nodesAfter, hgX]
    rw [h1, nodesAfter_filter p _ hpX, nodesAfter_nodesAfter hL hXS]
    simp

theorem nextIn_last {all : List Component} {X : Component} (hall : all.Nodup)
    (hlast : all.getLast? = some X) : nextIn all X = none := by
  obtain ⟨ys, rfl⟩ := List.getLast?_eq_some_iff.1 hlast
  have hX : X ∉ ys := by
    intro h
    exact (List.nodup_append.1 hall).2.2 h (List.mem_singleton_self X)
  unfold nextIn
  rw [nodesAfter_append_cons hX]
  rfl

theorem iterateNext_enum (step : Component → Option (Option Component))
    {L : List Component} (hL : L.Nodup) (p : Component → Bool) :
    ∀ (n : Nat) (g : Component), (nodesAfter L g).length < n →
      (∀ X ∈ g :: (nodesAfter L g).filter p, step X = some ((nodesAfter L X).find? p)) →
      iterateNext step n (some g) = some (g :: (nodesAfter L g).filter p) := by
  intro n
  induction n with
  | zero => intro g h; omega
  | succ n ih =>
    intro g h hstep
    unfold iterateNext
    rw [hstep g (List.mem_cons_self g _)]
    cases hf : (nodesAfter L g).find? p with
    | none =>
      have hnil : (nodesAfter L g).filter p = [] := by
        rw [List.filter_eq_nil_iff]
        exact List.find?_eq_none.1 hf
      simp [iterateNext, hnil]
    | some y =>
      have hy : y ∈ nodesAfter L g := List.mem_of_find?_eq_some hf
      have hne : nodesAfter L g ≠ [] := List.ne_nil_of_mem hy
      have hlen : (nodesAfter L y).length < n := by
        have := nodesAfter_length_lt y hne
        rw [nodesAfter_nodesAfter hL hy] at this
        omega
      have hcons : (nodesAfter L g).filter p = y :: (nodesAfter L y).filter p := by
        rw [filter_eq_cons_of_find hf, nodesAfter_nodesAfter hL hy]
      simp only []
      rw [ih y hlen (fun X hX => hstep X (by rw [hcons]; exact List.mem_cons_of_mem g hX)),
        hcons]
      rfl

/-- When the raw default is the head of the list order and lies inside `P`
whenever it wants keyboard focus, `getAllComponents P` is the list order
filtered to the eligible nodes. -/
theorem getAllComponents_eq_filter_eligible (tree : ComponentTree) (t : ComponentTraverser)
    {L : List Component} (hord : ListOrdered t L) (P : Component)
    (ht : tree.createFocusTraverser P = some t)
    (hdefault : t.getDefaultComponent P = L.head?)
    (hhead : ∀ d, L.head? = some d → tree.getWantsKeyboardFocus d = true →
      tree.isParentOf P d = true)
    (fuel : Nat) (hfuel : L.length < fuel) :
    getAllComponents tree fuel P = some (L.filter (eligible tree P)) := by
  rw [getAllComponents_of_listOrdered tree t hord P ht fuel hfuel, hdefault]
  cases L with
  | nil => rfl
  | cons d rest =>
    simp only [List.head?_cons]
    have hrest : nodesAfter (d :: rest) d = rest := by simp [nodesAfter]
    rw [hrest]
    by_cases hw : tree.getWantsKeyboardFocus d = true
    · have he : eligible tree P d = true := by
        simp [eligible, hw, hhead d rfl hw]
      simp [hw, List.filter_cons, he]
    · have he : ¬ eligible tree P d = true := by
        simp [eligible, hw]
      simp [hw, List.filter_cons, he]

theorem prevIn_filter (p : Component → Bool) (L : List Component) {X : Component}
    (hX : p X = true) : prevIn (L.filter p) X = (nodesAfter L.reverse X).find? p := by
  unfold prevIn
  rw [← List.filter_reverse, nodesAfter_filter p _ hX]
  simp

theorem prevIn_first {all : List Component} {X : Component} (hall : all.Nodup)
    (hfirst : all.head? = some X) : prevIn all X = none := by
  have h := nextIn_last (List.nodup_reverse.2 hall) (by simpa using hfirst)
  exact h

/-! ## Facts that hold for every raw traverser -/

/-- Whatever the raw traverser, a node returned by the walk passed the test
of the walk: it wants keyboard focus and lies inside the boundary. -/
theorem findComponent_result_eligible (tree : ComponentTree) (t : ComponentTraverser)
    (B : Component) (dir : Direction) :
    ∀ (fuel : Nat) (c r : Component), findComponent tree t fuel c B dir = some (some r) →
      tree.getWantsKeyboardFocus r = true ∧ tree.isParentOf B r = true := by
  intro fuel
  induction fuel with
  | zero => intro c r h; simp [findComponent] at h
  | succ n ih =>
    intro c r h
    unfold findComponent at h
    cases hs : traverse t c dir with
    | none => simp [hs] at h
    | some y =>
      simp only [hs] at h
      by_cases he : (tree.getWantsKeyboardFocus y && tree.isParentOf B y) = true
      · rw [if_pos he] at h
        have hyr : y = r := Option.some.inj (Option.some.inj h)
        subst hyr
        simpa using he
      · rw [if_neg he] at h
        exact ih y r h

/-- Whatever the raw traverser, the loop of `getAllComponents` only appends
nodes that want keyboard focus, when it is entered at such a node. -/
theorem getAllLoop_wants (tree : ComponentTree) (t : ComponentTraverser) (fuel : Nat)
    (P : Component) :
    ∀ (n : Nat) (cur : Option Component) (acc all : List Component),
      getAllLoop tree t fuel P n cur acc = some all →
      (∀ c, cur = some c → tree.getWantsKeyboardFocus c = true) →
      (∀ x ∈ acc, tree.getWantsKeyboardFocus x = true) →
      ∀ x ∈ all, tree.getWantsKeyboardFocus x = true := by
  intro n
  induction n with
  | zero =>
    intro cur acc all h _ hacc
    cases cur with
    | none =>
      simp only [getAllLoop] at h
      cases h
      exact hacc
    | some c => simp [getAllLoop] at h
  | succ n ih =>
    intro cur acc all h hcur hacc
    cases cur with
    | none =>
      simp only [getAllLoop] at h
      cases h
      exact hacc
    | some c =>
      unfold getAllLoop at h
      cases hf : findComponent tree t fuel c P Direction.Forwards with
      | none => simp [hf] at h
      | some next =>
        simp only [hf] at h
        apply ih next (acc ++ [c]) all h
        · intro y hy
          subst hy
          exact (findComponent_result_eligible tree t P Direction.Forwards fuel c y hf).1
        · intro x hx
          rcases List.mem_append.1 hx with hx | hx
          · exact hacc x hx
          · rw [List.mem_singleton.1 hx]
            exact hcur c rfl

/-- Whatever the raw traverser, a node returned by `getDefaultComponent`
wants keyboard focus, and is either the raw default or inside the parent. -/
theorem getDefaultComponent_result (tree : ComponentTree) (fuel : Nat) (P r : Component)
    (h : getDefaultComponent tree fuel P = some (some r)) :
    tree.getWantsKeyboardFocus r = true ∧
      ((∃ t, tree.createFocusTraverser P = some t ∧ t.getDefaultComponent P = some r) ∨
        tree.isParentOf P r = true) := by
  unfold getDefaultComponent at h
  cases ht : tree.createFocusTraverser P with
  | none => simp [ht] at h
  | some t =>
    simp only [ht] at h
    cases hd : t.getDefaultComponent P with
    | none => simp [hd] at h
    | some d =>
      simp only [hd] at h
      by_cases hw : tree.getWantsKeyboardFocus d = true
      · rw [if_pos hw] at h
        have hdr : d = r := Option.some.inj (Option.some.inj h)
        subst hdr
        exact ⟨hw, Or.inl ⟨t, rfl, hd⟩⟩
      · rw [if_neg hw] at h
        have := findComponent_result_eligible tree t P Direction.Forwards fuel d r h
        exact ⟨this.1, Or.inr this.2⟩

/-- When no node is eligible for `B` and the raw walk from `c` ends within
`n` steps, the walk returns none for every fuel from `n` on. -/
theorem findComponent_none_of_no_eligible (tree : ComponentTree) (t : ComponentTraverser)
    (B : Component) (dir : Direction)
    (hzero : ∀ x, ¬ (tree.getWantsKeyboardFocus x = true ∧ tree.isParentOf B x = true)) :
    ∀ (n fuel : Nat) (c : Component), rawWalkEnds t dir n c = true → n ≤ fuel →
      findComponent tree t fuel c B dir = some none := by
  intro n
  induction n with
  | zero => intro fuel c h; simp [rawWalkEnds] at h
  | succ n ih =>
    intro fuel c h hle
    obtain ⟨f, rfl⟩ : ∃ f, fuel = f + 1 := ⟨fuel - 1, by omega⟩
    unfold rawWalkEnds at h
    unfold findComponent
    cases hs : traverse t c dir with
    | none => rfl
    | some y =>
      simp only [hs] at h ⊢
      have hne : ¬ (tree.getWantsKeyboardFocus y && tree.isParentOf B y) = true := by
        intro he
        exact hzero y (by simpa using he)
      rw [if_neg hne]
      exact ih f y h (by omega)

theorem find_eq_some_of_unique {p : Component → Bool} {N : List Component} {D : Component}
    (hD : D ∈ N) (hp : p D = true) (huniq : ∀ x ∈ N, p x = true → x = D) :
    N.find? p = some D := by
  induction N with
  | nil => simp at hD
  | cons z zs ih =>
    by_cases hz : p z = true
    · rw [List.find?_cons_of_pos _ hz, huniq z (List.mem_cons_self z zs) hz]
    · rw [List.find?_cons_of_neg _ hz]
      have hDz : D ∈ zs := by
        rcases List.mem_cons.1 hD with e | e
        · exact absurd (e ▸ hp) hz
        · exact e
      exact ih hDz (fun x hx => huniq x (List.mem_cons_of_mem z hx))

/-- A list-ordered raw walk from any node ends within `L.length + 1` steps. -/
theorem rawWalkEnds_of_step (t : ComponentTraverser) (dir : Direction) {M : List Component}
    (hM : M.Nodup) (hstep : ∀ x, traverse t x dir = nextIn M x) :
    ∀ (n : Nat) (c : Component), (nodesAfter M c).length < n → rawWalkEnds t dir n c = true := by
  intro n
  induction n with
  | zero => intro c h; omega
  | succ n ih =>
    intro c h
    unfold rawWalkEnds
    rw [hstep c]
    unfold nextIn
    cases hc : nodesAfter M c with
    | nil => rfl
    | cons y rest =>
      have hy : y ∈ nodesAfter M c := by simp [hc]
      have hrest : nodesAfter M y = rest := by
        rw [← nodesAfter_nodesAfter hM hy, hc]
        simp [nodesAfter]
      rw [hc] at h
      simp only [List.head?_cons]
      exact ih y (by rw [hrest]; simpa using h)

/-- Whatever the raw traverser, when every raw step in direction `dir` raises
`rank`, a node returned by the walk has a higher rank than the start node. -/
theorem findComponent_rank_lt (tree : ComponentTree) (t : ComponentTraverser)
    (B : Component) (dir : Direction) (rank : Component → Nat)
    (hadv : ∀ x y, traverse t x dir = some y → rank x < rank y) :
    ∀ (fuel : Nat) (c r : Component), findComponent tree t fuel c B dir = some (some r) →
      rank c < rank r := by
  intro fuel
  induction fuel with
  | zero => intro c r h; simp [findComponent] at h
  | succ n ih =>
    intro c r h
    unfold findComponent at h
    cases hs : traverse t c dir with
    | none => simp [hs] at h
    | some y =>
      simp only [hs] at h
      by_cases he : (tree.getWantsKeyboardFocus y && tree.isParentOf B y) = true
      · rw [if_pos he] at h
        have hyr : y = r := Option.some.inj (Option.some.inj h)
        subst hyr
        exact hadv c y hs
      · rw [if_neg he] at h
        exact lt_trans (hadv c y hs) (ih y r h)

/-- Under a list order `M`, each raw step raises the position in `M`. -/
theorem step_raises_position (t : ComponentTraverser) (dir : Direction) {M : List Component}
    (hM : M.Nodup) (hstep : ∀ x, traverse t x dir = nextIn M x) :
    ∀ x y, traverse t x dir = some y →
      M.length - (nodesAfter M x).length < M.length - (nodesAfter M y).length := by
  intro x y h
  rw [hstep x] at h
  unfold nextIn at h
  have hy : y ∈ nodesAfter M x := List.mem_of_mem_head? h
  have hne : nodesAfter M x ≠ [] := List.ne_nil_of_mem hy
  have h1 := nodesAfter_length_lt y hne
  rw [nodesAfter_nodesAfter hM hy] at h1
  have h2 := nodesAfter_length_le M x
  omega

/-- Dropping the counter of `findComponentSteps` gives `findComponent`. -/
theorem findComponentSteps_fst (tree : ComponentTree) (t : ComponentTraverser)
    (B : Component) (dir : Direction) :
    ∀ (fuel : Nat) (c : Component),
      (findComponentSteps tree t fuel c B dir).map Prod.fst
        = findComponent tree t fuel c B dir := by
  intro fuel
  induction fuel with
  | zero => intro c; rfl
  | succ n ih =>
    intro c
    unfold findComponentSteps findComponent
    cases hs : traverse t c dir with
    | none => rfl
    | some y =>
      simp only []
      by_cases he : (tree.getWantsKeyboardFocus y && tree.isParentOf B y) = true
      · rw [if_pos he, if_pos he]
        rfl
      · rw [if_neg he, if_neg he, ← ih y]
        cases findComponentSteps tree t n y B dir with
        | none => rfl
        | some rk => rfl

/-- Under a list order `M`, the walk from `c` takes at most one raw step per
node after `c`, plus one. -/
theorem findComponentSteps_of_step (tree : ComponentTree) (t : ComponentTraverser)
    (dir : Direction) {M : List Component} (hM : M.Nodup)
    (hstep : ∀ x, traverse t x dir = nextIn M x) (B : Component) :
    ∀ (fuel : Nat) (c : Component), (nodesAfter M c).length < fuel →
      ∃ k, findComponentSteps tree t fuel c B dir
          = some ((nodesAfter M c).find? (eligible tree B), k) ∧
        k ≤ (nodesAfter M c).length + 1 := by
  intro fuel
  induction fuel with
  | zero => intro c h; omega
  | succ n ih =>
    intro c h
    unfold findComponentSteps
    rw [hstep c]
    unfold nextIn
    cases hc : nodesAfter M c with
    | nil => exact ⟨1, rfl, by simp⟩
    | cons y rest =>
      have hy : y ∈ nodesAfter M c := by simp [hc]
      have hrest : nodesAfter M y = rest := by
        rw [← nodesAfter_nodesAfter hM hy, hc]
        simp [nodesAfter]
      rw [hc] at h
      simp only [List.head?_cons]
      by_cases he : eligible tree B y = true
      · have he2 := he
        unfold eligible at he2
        rw [if_pos he2, List.find?_cons_of_pos _ he]
        exact ⟨1, rfl, by simp⟩
      · have he2 := he
        unfold eligible at he2
        obtain ⟨k, hk, hle⟩ := ih y (by rw [hrest]; simpa using h)
        rw [if_neg he2, List.find?_cons_of_neg _ he, hk, hrest]
        refine ⟨k + 1, rfl, ?_⟩
        rw [hrest] at hle
        simp only [List.length_cons]
        omega

theorem mem_nodesAfter_append_cons {mid rest : List Component} {y z : Component}
    (hz : z ∈ mid) : y ∈ nodesAfter (mid ++ y :: rest) z := by
  induction mid with
  | nil => simp at hz
  | cons w ws ih =>
    by_cases hwz : w = z
    · simp [nodesAfter, hwz]
    · have hz2 : z ∈ ws := by
        rcases List.mem_cons.1 hz with e | e
        · exact absurd e.symm hwz
        · exact e
      simpa [nodesAfter, hwz] using ih hz2

/-- In a duplicate-free order, the nodes after `x` split at any `y` among
them into the nodes strictly between `x` and `y`, then `y`, then the nodes
after `y`. -/
theorem nodesAfter_split_at {L : List Component} {x y : Component} (hL : L.Nodup)
    (hy : y ∈ nodesAfter L x) :
    ∃ mid, nodesAfter L x = mid ++ y :: nodesAfter L y ∧ y ∉ mid ∧
      ∀ z ∈ mid, z ∈ nodesAfter L x ∧ y ∈ nodesAfter L z := by
  obtain ⟨mid, rest, hN⟩ := List.append_of_mem hy
  have hnd : (mid ++ y :: rest).Nodup := hN ▸ nodesAfter_nodup x hL
  have hymid : y ∉ mid := by
    intro h
    exact (List.nodup_append.1 hnd).2.2 h (List.mem_cons_self y rest)
  have hrest : nodesAfter L y = rest := by
    rw [← nodesAfter_nodesAfter hL hy, hN]
    exact nodesAfter_append_cons hymid
  refine ⟨mid, by rw [hrest]; exact hN, hymid, ?_⟩
  intro z hz
  have hzN : z ∈ nodesAfter L x := by
    rw [hN]
    exact List.mem_append_left _ hz
  refine ⟨hzN, ?_⟩
  rw [← nodesAfter_nodesAfter hL hzN, hN]
  exact mem_nodesAfter_append_cons hz

theorem filter_eligible_nested (tree : ComponentTree) (C G : Component)
    (hnested : ∀ n, tree.isParentOf C n = true → tree.isParentOf G n = true)
    (N : List Component) :
    N.filter (eligible tree C)
      = (N.filter (eligible tree G)).filter (fun n => tree.isParentOf C n) := by
  rw [List.filter_filter]
  apply List.filter_congr
  intro x _
  unfold eligible
  cases hC : tree.isParentOf C x with
  | false => simp
  | true => simp [hnested x hC]

theorem dropWhile_eq_cons_nodesAfter {L : List Component} {d : Component} (hd : d ∈ L) :
    L.dropWhile (fun x => x != d) = d :: nodesAfter L d := by
  induction L with
  | nil => simp at hd
  | cons z zs ih =>
    by_cases hz : z = d
    · subst hz
      simp [List.dropWhile_cons, nodesAfter]
    · have hd2 : d ∈ zs := by
        rcases List.mem_cons.1 hd with e | e
        · exact absurd e.symm hz
        · exact e
      simp [List.dropWhile_cons, nodesAfter, hz, ih hd2]

/-! ## Finite raw walks -/

theorem rawWalkEnds_succ (t : ComponentTraverser) (dir : Direction) :
    ∀ (n : Nat) (c : Component), rawWalkEnds t dir n c = true →
      rawWalkEnds t dir (n + 1) c = true := by
  intro n
  induction n with
  | zero => intro c h; simp [rawWalkEnds] at h
  | succ n ih =>
    intro c h
    unfold rawWalkEnds at h ⊢
    cases hs : traverse t c dir with
    | none => rfl
    | some y =>
      simp only [hs] at h ⊢
      exact ih y h

/-- When the raw walk from `c` ends within `n` steps, the walk `findComponent`
from `c` returns for every fuel from `n` on. -/
theorem findComponent_terminates (tree : ComponentTree) (t : ComponentTraverser)
    (B : Component) (dir : Direction) :
    ∀ (n fuel : Nat) (c : Component), rawWalkEnds t dir n c = true → n ≤ fuel →
      ∃ r, findComponent tree t fuel c B dir = some r := by
  intro n
  induction n with
  | zero => intro fuel c h; simp [rawWalkEnds] at h
  | succ n ih =>
    intro fuel c h hle
    obtain ⟨f, rfl⟩ : ∃ f, fuel = f + 1 := ⟨fuel - 1, by omega⟩
    unfold rawWalkEnds at h
    unfold findComponent
    cases hs : traverse t c dir with
    | none => exact ⟨none, rfl⟩
    | some y =>
      simp only [hs] at h ⊢
      by_cases he : (tree.getWantsKeyboardFocus y && tree.isParentOf B y) = true
      · rw [if_pos he]
        exact ⟨some y, rfl⟩
      · rw [if_neg he]
        exact ih f y h (by omega)

/-- A node returned by the walk from `c` lies further along the raw walk:
the raw walk from it ends in at least one step less. -/
theorem findComponent_result_walk (tree : ComponentTree) (t : ComponentTraverser)
    (B : Component) (dir : Direction) :
    ∀ (fuel n : Nat) (c r : Component), rawWalkEnds t dir (n + 1) c = true →
      findComponent tree t fuel c B dir = some (some r) → rawWalkEnds t dir n r = true := by
  intro fuel
  induction fuel with
  | zero => intro n c r _ h; simp [findComponent] at h
  | succ f ih =>
    intro n c r hw h
    unfold rawWalkEnds at hw
    unfold findComponent at h
    cases hs : traverse t c dir with
    | none => simp [hs] at h
    | some y =>
      simp only [hs] at hw h
      by_cases he : (tree.getWantsKeyboardFocus y && tree.isParentOf B y) = true
      · rw [if_pos he] at h
        have hyr : y = r := Option.some.inj (Option.some.inj h)
        subst hyr
        exact hw
      · rw [if_neg he] at h
        cases n with
        | zero => simp [rawWalkEnds] at hw
        | succ m => exact rawWalkEnds_succ t dir m r (ih m y r hw h)

/-- When the raw walk from `c` ends within `n` steps, the loop of
`getAllComponents` entered at `c` returns `c` followed by a list in which each
element is what `findComponent` returns for the element before it. -/
theorem getAllLoop_chain (tree : ComponentTree) (t : ComponentTraverser) (fuel : Nat)
    (P : Component) :
    ∀ (n m : Nat) (c : Component) (acc : List Component),
      rawWalkEnds t Direction.Forwards n c = true → n ≤ m → n ≤ fuel →
      ∃ l, getAllLoop tree t fuel P m (some c) acc = some (acc ++ c :: l) ∧
        List.Chain' (fun a b =>
          findComponent tree t fuel a P Direction.Forwards = some (some b)) (c :: l) := by
  intro n
  induction n with
  | zero => intro m c acc h; simp [rawWalkEnds] at h
  | succ n ih =>
    intro m c acc h hm hfuel
    obtain ⟨k, rfl⟩ : ∃ k, m = k + 1 := ⟨m - 1, by omega⟩
    obtain ⟨r, hr⟩ := findComponent_terminates tree t P Direction.Forwards (n + 1) fuel c
      h hfuel
    unfold getAllLoop
    cases r with
    | none =>
      refine ⟨[], ?_, List.chain'_singleton c⟩
      simp [hr, getAllLoop]
    | some y =>
      have hy := findComponent_result_walk tree t P Direction.Forwards fuel n c y h hr
      obtain ⟨l, hl, hchain⟩ := ih k y (acc ++ [c]) hy (by omega) (by omega)
      refine ⟨y :: l, ?_, List.chain'_cons.2 ⟨hr, hchain⟩⟩
      simp only [hr]
      rw [hl]
      simp

/-! ## Nodes before the raw default -/

/-- A duplicate-free order splits at any of its nodes `d` into the nodes
before `d`, then `d`, then the nodes after `d`. -/
theorem split_at_mem {L : List Component} {d : Component} (hL : L.Nodup) (hd : d ∈ L) :
    ∃ pre, L = pre ++ d :: nodesAfter L d ∧ ∀ x ∈ pre, d ∈ nodesAfter L x := by
  obtain ⟨pre, post, hsplit⟩ := List.append_of_mem hd
  have hnd : (pre ++ d :: post).Nodup := hsplit ▸ hL
  have hdpre : d ∉ pre := by
    intro h
    exact (List.nodup_append.1 hnd).2.2 h (List.mem_cons_self d post)
  have hpost : nodesAfter L d = post := by
    rw [hsplit]
    exact nodesAfter_append_cons hdpre
  refine ⟨pre, by rw [hpost]; exact hsplit, ?_⟩
  intro x hx
  rw [hsplit]
  exact mem_nodesAfter_append_cons hx

/-- A node met walking backwards from `d` is a node that `d` comes after. -/
theorem before_of_mem_reverse {L : List Component} {d x : Component} (hL : L.Nodup)
    (hx : x ∈ nodesAfter L.reverse d) : d ∈ nodesAfter L x := by
  have hdL : d ∈ L := by
    by_contra h
    have hr : d ∉ L.reverse := fun e => h (List.mem_reverse.1 e)
    rw [nodesAfter_of_not_mem hr] at hx
    simp at hx
  obtain ⟨pre, hsplit, hpre⟩ := split_at_mem hL hdL
  have hrev := (nodesAfter_of_split hL hsplit).2
  rw [hrev] at hx
  exact hpre x (List.mem_reverse.1 hx)

/-- When no eligible node precedes the raw default `d` of the order and `d`
lies inside `P` if it wants keyboard focus, the raw default (when it wants
focus) followed by the eligible nodes after it is the whole order filtered to
the eligible nodes. -/
theorem default_then_eligible_eq_filter (tree : ComponentTree) (P : Component)
    {L : List Component} {d : Component} (hL : L.Nodup) (hd : d ∈ L)
    (hbefore : ∀ x, d ∈ nodesAfter L x → ¬ eligible tree P x = true)
    (hin : tree.getWantsKeyboardFocus d = true → tree.isParentOf P d = true) :
    (if tree.getWantsKeyboardFocus d = true then [d] else [])
        ++ (nodesAfter L d).filter (eligible tree P)
      = L.filter (eligible tree P) := by
  obtain ⟨pre, hsplit, hpre⟩ := split_at_mem hL hd
  have hprenil : pre.filter (eligible tree P) = [] := by
    rw [List.filter_eq_nil_iff]
    intro x hx
    exact hbefore x (hpre x hx)
  have hfil : L.filter (eligible tree P)
      = (pre ++ d :: nodesAfter L d).filter (eligible tree P) :=
    congrArg (List.filter (eligible tree P)) hsplit
  rw [hfil, List.filter_append, hprenil, List.nil_append]
  by_cases hw : tree.getWantsKeyboardFocus d = true
  · have he : eligible tree P d = true := by simp [eligible, hw, hin hw]
    simp [hw, List.filter_cons, he]
  · have he : ¬ eligible tree P d = true := by simp [eligible, hw]
    simp [hw, List.filter_cons, he]

/-! ## The claims -/

/-- C1: for a raw traverser that is list-ordered over a duplicate-free list
`L = pre ++ c :: post`, any boundary `B` and either direction, `findComponent`
started at `c` returns (given more fuel than there are nodes beyond `c`) the
first node strictly after `c` in that direction that wants keyboard focus and
lies inside `B`; it returns none exactly when no node beyond `c` is such. -/
theorem findComponent_first_match (tree : ComponentTree) (t : ComponentTraverser)
    (L pre post : List Component) (c B : Component) (hord : ListOrdered t L)
    (hsplit : L = pre ++ c :: post) :
    (∀ fuel, post.length < fuel →
      findComponent tree t fuel c B Direction.Forwards
        = some (post.find? (fun n => tree.getWantsKeyboardFocus n && tree.isParentOf B n))) ∧
    (∀ fuel, pre.length < fuel →
      findComponent tree t fuel c B Direction.Backwards
        = some (pre.reverse.find?
            (fun n => tree.getWantsKeyboardFocus n && tree.isParentOf B n))) ∧
    (post.find? (fun n => tree.getWantsKeyboardFocus n && tree.isParentOf B n) = none ↔
      ∀ n ∈ post, ¬ (tree.getWantsKeyboardFocus n = true ∧ tree.isParentOf B n = true)) ∧
    (pre.reverse.find? (fun n => tree.getWantsKeyboardFocus n && tree.isParentOf B n) = none ↔
      ∀ n ∈ pre, ¬ (tree.getWantsKeyboardFocus n = true ∧ tree.isParentOf B n = true)) := by
  obtain ⟨hpost, hpre⟩ := nodesAfter_of_split hord.1 hsplit
  refine ⟨?_, ?_, ?_, ?_⟩
  · intro fuel hf
    have h := findComponent_of_step tree t Direction.Forwards hord.1
      (traverse_forwards_of_listOrdered hord) B fuel c (by rw [hpost]; exact hf)
    rw [hpost] at h
    exact h
  · intro fuel hf
    have h := findComponent_of_step tree t Direction.Backwards
      (List.nodup_reverse.2 hord.1) (traverse_backwards_of_listOrdered hord) B fuel c
      (by rw [hpre]; simpa using hf)
    rw [hpre] at h
    exact h
  · simp
  · simp

/-- C1 at the demo tree: from node 2 the forward walk skips 3 (outside the
container) and returns 4; the backward walk returns 1. -/
theorem findComponent_first_match_witness :
    findComponent demoTree demoTraverser 3 2 0 Direction.Forwards = some (some 4) ∧
    findComponent demoTree demoTraverser 2 2 0 Direction.Backwards = some (some 1) :=
  ⟨(findComponent_first_match demoTree demoTraverser [1, 2, 3, 4] [1] [3, 4] 2 0
      (listTraverser_listOrdered none (by decide)) rfl).1 3 (by decide),
   (findComponent_first_match demoTree demoTraverser [1, 2, 3, 4] [1] [3, 4] 2 0
      (listTraverser_listOrdered none (by decide)) rfl).2.1 2 (by decide)⟩

/-- C2: when the traverser of `parent` is list-ordered over a duplicate-free
`L`, its raw default is the head of `L` and every node of `L` is inside
`parent`, `getAllComponents parent` returns (given more fuel than `L` has
nodes) exactly the nodes of `L` that want keyboard focus, in the order of `L`. -/
theorem getAllComponents_eq_filter (tree : ComponentTree) (t : ComponentTraverser)
    (L : List Component) (parent : Component)
    (ht : tree.createFocusTraverser parent = some t) (hord : ListOrdered t L)
    (hdefault : t.getDefaultComponent parent = L.head?)
    (hinside : ∀ x ∈ L, tree.isParentOf parent x = true) :
    ∀ fuel, L.length < fuel →
      getAllComponents tree fuel parent
        = some (L.filter (fun n => tree.getWantsKeyboardFocus n)) := by
  intro fuel hfuel
  rw [getAllComponents_of_listOrdered tree t hord parent ht fuel hfuel, hdefault]
  have hfil : ∀ N : List Component, (∀ x ∈ N, x ∈ L) →
      N.filter (eligible tree parent) = N.filter (fun n => tree.getWantsKeyboardFocus n) := by
    intro N hN
    apply List.filter_congr
    intro x hx
    simp [eligible, hinside x (hN x hx)]
  cases L with
  | nil => rfl
  | cons d rest =>
    simp only [List.head?_cons]
    have hrest : nodesAfter (d :: rest) d = rest := by simp [nodesAfter]
    rw [hrest, hfil rest (fun x hx => List.mem_cons_of_mem d hx)]
    by_cases hw : tree.getWantsKeyboardFocus d = true
    · simp [hw, List.filter_cons]
    · simp [hw, List.filter_cons]

/-- C2 at a tree whose raw order is 1, 2, 3, 4 with 2 and 4 wanting focus. -/
theorem getAllComponents_eq_filter_witness :
    getAllComponents headTree 5 0 = some [2, 4] :=
  getAllComponents_eq_filter headTree headTraverser [1, 2, 3, 4] 0 rfl
    (listTraverser_listOrdered (some 1) (by decide)) rfl (by decide) 5 (by decide)

/-- C3: when the traverser of `P` is list-ordered over `L`, `getAllComponents P`
returns a duplicate-free list `all` such that, for every `X` in `all` whose
focus container is `P` and whose traverser is list-ordered over the same `L`,
`getNextComponent X` is the element that follows `X` in `all`, and none when
`X` is the last element; when every element of `all` is such, iterating
`getNextComponent` from `getDefaultComponent P` until none yields `all`. -/
theorem getNextComponent_agrees_getAll (tree : ComponentTree) (t : ComponentTraverser)
    (L : List Component) (P : Component) (ht : tree.createFocusTraverser P = some t)
    (hord : ListOrdered t L) (fuel : Nat) (hfuel : L.length < fuel) :
    ∃ all start, getAllComponents tree fuel P = some all ∧
      getDefaultComponent tree fuel P = some start ∧ all.Nodup ∧
      (∀ X ∈ all, tree.findFocusContainer X = P →
        (∃ tX, tree.createFocusTraverser X = some tX ∧ ListOrdered tX L) →
        getNextComponent tree fuel X = some (nextIn all X) ∧
        (all.getLast? = some X → getNextComponent tree fuel X = some none)) ∧
      ((∀ X ∈ all, tree.findFocusContainer X = P ∧
          ∃ tX, tree.createFocusTraverser X = some tX ∧ ListOrdered tX L) →
        iterateNext (getNextComponent tree fuel) fuel start = some all) := by
  obtain ⟨start, hstart, hall⟩ := getAllComponents_shape tree t hord P ht fuel hfuel
  refine ⟨_, start, hall, hstart, ?_, ?_, ?_⟩
  · cases start with
    | none => simp
    | some g => exact nodup_enum hord.1 _ g
  · intro X hX hP hT
    obtain ⟨tX, htX, hordX⟩ := hT
    have hnext := (getComponent_of_listOrdered tree tX hordX X P htX hP fuel hfuel).1
    cases start with
    | none => simp at hX
    | some g =>
      simp only [] at hX ⊢
      have hn := nextIn_enum hord.1 (eligible tree P) g X hX
      refine ⟨by rw [hn]; exact hnext, ?_⟩
      intro hlast
      rw [hnext, ← hn, nextIn_last (nodup_enum hord.1 _ g) hlast]
  · intro hX
    cases start with
    | none => simp [iterateNext]
    | some g =>
      simp only [] at hX ⊢
      apply iterateNext_enum _ hord.1 (eligible tree P) fuel g
        (lt_of_le_of_lt (nodesAfter_length_le L g) hfuel)
      intro X hXm
      obtain ⟨hP, tX, htX, hordX⟩ := hX X hXm
      exact (getComponent_of_listOrdered tree tX hordX X P htX hP fuel hfuel).1

/-- C3 at the tree with raw order 1, 2, 3, 4, where `getAllComponents 0` is
`[2, 4]`: the next of 2 is 4, the next of 4 is none, and iterating from the
default 2 enumerates `[2, 4]`. -/
theorem getNextComponent_agrees_getAll_witness :
    getAllComponents headTree 5 0 = some [2, 4] ∧
    getNextComponent headTree 5 2 = some (some 4) ∧
    getNextComponent headTree 5 4 = some none ∧
    iterateNext (getNextComponent headTree 5) 5 (some 2) = some [2, 4] := by
  obtain ⟨all, start, hall, hstart, _, hnext, hiter⟩ :=
    getNextComponent_agrees_getAll headTree headTraverser [1, 2, 3, 4] 0 rfl
      (listTraverser_listOrdered (some 1) (by decide)) 5 (by decide)
  have hord : ListOrdered headTraverser [1, 2, 3, 4] :=
    listTraverser_listOrdered (some 1) (by decide)
  have e1 : getAllComponents headTree 5 0 = some [2, 4] := by decide
  have e2 : getDefaultComponent headTree 5 0 = some (some 2) := by decide
  have hA : all = [2, 4] := Option.some.inj (hall.symm.trans e1)
  have hS : start = some 2 := Option.some.inj (hstart.symm.trans e2)
  subst hA
  subst hS
  refine ⟨e1, (hnext 2 (by simp) rfl ⟨headTraverser, rfl, hord⟩).1,
    (hnext 4 (by simp) rfl ⟨headTraverser, rfl, hord⟩).2 rfl, ?_⟩
  exact hiter (fun X _ => ⟨rfl, headTraverser, rfl, hord⟩)

/-- C4 fails as stated.  First tree: raw order 1, 2 with raw default 2, both
nodes eligible inside container 0; `getAllComponents 0` is `[2]`, yet
`getPreviousComponent 2` is 1, not none.  Second tree: raw default 1 is the
head, wants focus but lies outside container 0; `getAllComponents 0` is
`[1, 2]`, yet `getPreviousComponent 2` is none, not 1. -/
theorem getPreviousComponent_disagrees_getAll :
    (ListOrdered tailTraverser [1, 2] ∧
      tailTree.createFocusTraverser 0 = some tailTraverser ∧
      tailTree.createFocusTraverser 2 = some tailTraverser ∧
      tailTree.findFocusContainer 2 = 0 ∧
      (∀ fuel, 2 < fuel → getAllComponents tailTree fuel 0 = some [2]) ∧
      (∀ fuel, 2 < fuel → getPreviousComponent tailTree fuel 2 = some (some 1)) ∧
      prevIn [2] 2 = none) ∧
    (ListOrdered outsideTraverser [1, 2] ∧
      outsideTree.createFocusTraverser 0 = some outsideTraverser ∧
      outsideTree.createFocusTraverser 2 = some outsideTraverser ∧
      outsideTree.findFocusContainer 2 = 0 ∧
      (∀ fuel, 2 < fuel → getAllComponents outsideTree fuel 0 = some [1, 2]) ∧
      (∀ fuel, 2 < fuel → getPreviousComponent outsideTree fuel 2 = some none) ∧
      prevIn [1, 2] 2 = some 1) := by
  have h1 : ListOrdered tailTraverser [1, 2] := listTraverser_listOrdered (some 2) (by decide)
  have h2 : ListOrdered outsideTraverser [1, 2] :=
    listTraverser_listOrdered (some 1) (by decide)
  refine ⟨⟨h1, rfl, rfl, rfl, ?_, ?_, rfl⟩, ⟨h2, rfl, rfl, rfl, ?_, ?_, rfl⟩⟩
  · intro fuel hf
    rw [getAllComponents_of_listOrdered tailTree tailTraverser h1 0 rfl fuel hf]
    rfl
  · intro fuel hf
    rw [(getComponent_of_listOrdered tailTree tailTraverser h1 2 0 rfl rfl fuel hf).2]
    rfl
  · intro fuel hf
    rw [getAllComponents_of_listOrdered outsideTree outsideTraverser h2 0 rfl fuel hf]
    rfl
  · intro fuel hf
    rw [(getComponent_of_listOrdered outsideTree outsideTraverser h2 2 0 rfl rfl fuel hf).2]
    rfl

/-- C4, amended: let the traverser of `P` be list-ordered over `L`, with any raw
default `d` (or none) such that (a) when `d` wants keyboard focus or an eligible
node follows `d`, no node before `d` in `L` wants keyboard focus inside `P`, and
(b) when `d` wants keyboard focus and an eligible node follows `d`, `d` lies
inside `P`.  Then `getAllComponents P` returns a duplicate-free list `all` such
that, for every `X` in `all` whose focus container is `P` and whose traverser
is list-ordered over the same `L`, `getPreviousComponent X` is the element that
precedes `X` in `all`, and none when `X` is the first element. -/
theorem getPreviousComponent_agrees_getAll (tree : ComponentTree) (t : ComponentTraverser)
    (L : List Component) (P : Component) (ht : tree.createFocusTraverser P = some t)
    (hord : ListOrdered t L)
    (hbefore : ∀ d, t.getDefaultComponent P = some d →
      (tree.getWantsKeyboardFocus d = true ∨
        ∃ y ∈ nodesAfter L d, tree.getWantsKeyboardFocus y = true ∧
          tree.isParentOf P y = true) →
      ∀ x, d ∈ nodesAfter L x →
        ¬ (tree.getWantsKeyboardFocus x = true ∧ tree.isParentOf P x = true))
    (hinside : ∀ d, t.getDefaultComponent P = some d →
      tree.getWantsKeyboardFocus d = true →
      (∃ y ∈ nodesAfter L d, tree.getWantsKeyboardFocus y = true ∧
        tree.isParentOf P y = true) →
      tree.isParentOf P d = true)
    (fuel : Nat) (hfuel : L.length < fuel) :
    ∃ all, getAllComponents tree fuel P = some all ∧ all.Nodup ∧
      ∀ X ∈ all, tree.findFocusContainer X = P →
        (∃ tX, tree.createFocusTraverser X = some tX ∧ ListOrdered tX L) →
        getPreviousComponent tree fuel X = some (prevIn all X) ∧
        (all.head? = some X → getPreviousComponent tree fuel X = some none) := by
  have hall := getAllComponents_of_listOrdered tree t hord P ht fuel hfuel
  have hfinish : ∀ all : List Component, getAllComponents tree fuel P = some all →
      all.Nodup →
      (∀ X ∈ all, prevIn all X = (nodesAfter L.reverse X).find? (eligible tree P)) →
      ∃ all, getAllComponents tree fuel P = some all ∧ all.Nodup ∧
        ∀ X ∈ all, tree.findFocusContainer X = P →
          (∃ tX, tree.createFocusTraverser X = some tX ∧ ListOrdered tX L) →
          getPreviousComponent tree fuel X = some (prevIn all X) ∧
          (all.head? = some X → getPreviousComponent tree fuel X = some none) := by
    intro all h1 hnd hp
    refine ⟨all, h1, hnd, ?_⟩
    intro X hX hP hT
    obtain ⟨tX, htX, hordX⟩ := hT
    have hprev := (getComponent_of_listOrdered tree tX hordX X P htX hP fuel hfuel).2
    refine ⟨by rw [hp X hX]; exact hprev, ?_⟩
    intro hfirst
    rw [hprev, ← hp X hX, prevIn_first hnd hfirst]
  cases hdef : t.getDefaultComponent P with
  | none =>
    rw [hdef] at hall
    exact hfinish [] hall List.nodup_nil (fun X hX => absurd hX (List.not_mem_nil X))
  | some d =>
    rw [hdef] at hall
    simp only [] at hall
    apply hfinish _ hall
    all_goals
      by_cases hF : ∃ y ∈ nodesAfter L d, tree.getWantsKeyboardFocus y = true ∧
          tree.isParentOf P y = true
    · have hF2 := hF
      obtain ⟨y, hy, _⟩ := hF2
      have hdL : d ∈ L := by
        by_contra h
        rw [nodesAfter_of_not_mem h] at hy
        simp at hy
      have heq := default_then_eligible_eq_filter tree P hord.1 hdL
        (fun x hx he => hbefore d hdef (Or.inr hF) x hx (by simpa [eligible] using he))
        (fun hw => hinside d hdef hw hF)
      rw [heq]
      exact hord.1.filter _
    · have hFnil : (nodesAfter L d).filter (eligible tree P) = [] := by
        rw [List.filter_eq_nil_iff]
        intro y hy he
        exact hF ⟨y, hy, by simpa [eligible] using he⟩
      rw [hFnil]
      by_cases hw : tree.getWantsKeyboardFocus d = true
      · simp [hw]
      · simp [hw]
    · have hF2 := hF
      obtain ⟨y, hy, _⟩ := hF2
      have hdL : d ∈ L := by
        by_contra h
        rw [nodesAfter_of_not_mem h] at hy
        simp at hy
      have heq := default_then_eligible_eq_filter tree P hord.1 hdL
        (fun x hx he => hbefore d hdef (Or.inr hF) x hx (by simpa [eligible] using he))
        (fun hw => hinside d hdef hw hF)
      rw [heq]
      intro X hX
      exact prevIn_filter (eligible tree P) L (List.mem_filter.1 hX).2
    · have hFnil : (nodesAfter L d).filter (eligible tree P) = [] := by
        rw [List.filter_eq_nil_iff]
        intro y hy he
        exact hF ⟨y, hy, by simpa [eligible] using he⟩
      rw [hFnil]
      by_cases hw : tree.getWantsKeyboardFocus d = true
      · simp only [hw, if_true, List.append_nil]
        intro X hX
        have hXd : X = d := List.mem_singleton.1 hX
        subst hXd
        have h1 : prevIn [X] X = none := by simp [prevIn, nodesAfter]
        rw [h1]
        symm
        rw [List.find?_eq_none]
        intro x hx he
        exact hbefore X hdef (Or.inl hw) x (before_of_mem_reverse hord.1 hx)
          (by simpa [eligible] using he)
      · intro X hX
        simp [hw] at hX

/-- C4 amended, at `midTree`: raw order 1, 2, 3, 4 with raw default 2 in the
middle, node 1 before it not wanting focus; `getAllComponents 0` is `[2, 4]`,
the previous of 4 is 2 and the previous of 2 is none. -/
theorem getPreviousComponent_agrees_getAll_witness :
    getAllComponents midTree 5 0 = some [2, 4] ∧
    getPreviousComponent midTree 5 4 = some (some 2) ∧
    getPreviousComponent midTree 5 2 = some none := by
  have hord : ListOrdered midTraverser [1, 2, 3, 4] :=
    listTraverser_listOrdered (some 2) (by decide)
  obtain ⟨all, hall, _, hprev⟩ :=
    getPreviousComponent_agrees_getAll midTree midTraverser [1, 2, 3, 4] 0 rfl hord
      (by
        intro d hd _ x hx hw
        have hd2 : 2 = d := Option.some.inj hd
        subst hd2
        have hx2 : x = 2 ∨ x = 4 := by
          have h1 := hw.1
          simpa [midTree, mkTree] using h1
        rcases hx2 with e | e
        · subst e
          exact absurd hx (by decide)
        · subst e
          exact absurd hx (by decide))
      (by
        intro d hd _ _
        have hd2 : 2 = d := Option.some.inj hd
        subst hd2
        decide)
      5 (by decide)
  have e1 : getAllComponents midTree 5 0 = some [2, 4] := by decide
  have hA : all = [2, 4] := Option.some.inj (hall.symm.trans e1)
  subst hA
  exact ⟨e1, (hprev 4 (by simp) rfl ⟨midTraverser, rfl, hord⟩).1,
    (hprev 2 (by simp) rfl ⟨midTraverser, rfl, hord⟩).2 rfl⟩

/-- C5: whatever the raw traverser of `current`, a node returned by
`getNextComponent current` or by `getPreviousComponent current` wants keyboard
focus and lies inside the focus container of `current`. -/
theorem getComponent_scoped (tree : ComponentTree) (fuel : Nat) (current r : Component)
    (h : getNextComponent tree fuel current = some (some r) ∨
      getPreviousComponent tree fuel current = some (some r)) :
    tree.getWantsKeyboardFocus r = true ∧
      tree.isParentOf (tree.findFocusContainer current) r = true := by
  unfold getNextComponent getPreviousComponent getComponent at h
  cases ht : tree.createFocusTraverser current with
  | none => simp [ht] at h
  | some t =>
    simp only [ht] at h
    rcases h with h | h
    · exact findComponent_result_eligible tree t _ Direction.Forwards fuel current r h
    · exact findComponent_result_eligible tree t _ Direction.Backwards fuel current r h

/-- C5 at the demo tree: `getNextComponent 2` returns 4, which wants focus and
is inside container 0 (node 3, outside it, was skipped). -/
theorem getComponent_scoped_witness :
    getNextComponent demoTree 3 2 = some (some 4) ∧
    demoTree.getWantsKeyboardFocus 4 = true ∧
    demoTree.isParentOf (demoTree.findFocusContainer 2) 4 = true :=
  ⟨by decide, getComponent_scoped demoTree 3 2 4 (Or.inl (by decide))⟩

/-- C6 fails as stated: with raw order 1, 2, raw default 1 wanting keyboard
focus and lying outside container 0, `getDefaultComponent 0` returns 1. -/
theorem getDefaultComponent_not_scoped :
    outsideTree.createFocusTraverser 0 = some outsideTraverser ∧
    outsideTraverser.getDefaultComponent 0 = some 1 ∧
    outsideTree.getWantsKeyboardFocus 1 = true ∧
    (∀ fuel, getDefaultComponent outsideTree fuel 0 = some (some 1)) ∧
    outsideTree.isParentOf 0 1 = false :=
  ⟨rfl, rfl, by decide, fun _ => rfl, by decide⟩

/-- C6, amended: when the raw default that the traverser of `parentComponent`
gives for it lies inside `parentComponent` whenever it wants keyboard focus,
any node returned by `getDefaultComponent parentComponent` lies inside
`parentComponent`. -/
theorem getDefaultComponent_scoped (tree : ComponentTree) (fuel : Nat)
    (parentComponent r : Component)
    (hdefault : ∀ t d, tree.createFocusTraverser parentComponent = some t →
      t.getDefaultComponent parentComponent = some d →
      tree.getWantsKeyboardFocus d = true → tree.isParentOf parentComponent d = true)
    (h : getDefaultComponent tree fuel parentComponent = some (some r)) :
    tree.isParentOf parentComponent r = true := by
  obtain ⟨hw, hr | hr⟩ := getDefaultComponent_result tree fuel parentComponent r h
  · obtain ⟨t, ht, hd⟩ := hr
    exact hdefault t r ht hd hw
  · exact hr

/-- C6 amended, at the tree with raw order 1, 2, 3, 4 inside container 0 and
raw default 1: `getDefaultComponent 0` returns 2, inside container 0. -/
theorem getDefaultComponent_scoped_witness :
    getDefaultComponent headTree 5 0 = some (some 2) ∧ headTree.isParentOf 0 2 = true :=
  ⟨by decide, getDefaultComponent_scoped headTree 5 0 2
    (by
      intro t d ht hd _
      have ht2 : headTraverser = t := Option.some.inj ht
      subst ht2
      have hd2 : 1 = d := Option.some.inj hd
      subst hd2
      decide)
    (by decide)⟩

/-- C7: whatever the traverser, a node returned by `getDefaultComponent parent`
wants keyboard focus, and so does every element of the list returned by
`getAllComponents parent`. -/
theorem results_want_keyboard_focus (tree : ComponentTree) (fuel : Nat) (parent : Component) :
    (∀ r, getDefaultComponent tree fuel parent = some (some r) →
      tree.getWantsKeyboardFocus r = true) ∧
    (∀ all, getAllComponents tree fuel parent = some all →
      ∀ x ∈ all, tree.getWantsKeyboardFocus x = true) := by
  refine ⟨fun r h => (getDefaultComponent_result tree fuel parent r h).1, ?_⟩
  intro all h
  unfold getAllComponents at h
  cases ht : tree.createFocusTraverser parent with
  | none =>
    simp only [ht] at h
    cases h
    simp
  | some t =>
    simp only [ht] at h
    cases hd : getDefaultComponent tree fuel parent with
    | none => simp [hd] at h
    | some start =>
      simp only [hd] at h
      apply getAllLoop_wants tree t fuel parent fuel start [] all h
      · intro c hc
        subst hc
        exact (getDefaultComponent_result tree fuel parent c hd).1
      · simp

/-- C7 at the tree with raw order 1, 2, 3, 4: the default 2 and the elements
2 and 4 of `getAllComponents 0` want keyboard focus. -/
theorem results_want_keyboard_focus_witness :
    getDefaultComponent headTree 5 0 = some (some 2) ∧
    getAllComponents headTree 5 0 = some [2, 4] ∧
    headTree.getWantsKeyboardFocus 2 = true ∧
    (∀ x ∈ [2, 4], headTree.getWantsKeyboardFocus x = true) :=
  ⟨by decide, by decide,
    (results_want_keyboard_focus headTree 5 0).1 2 (by decide),
    (results_want_keyboard_focus headTree 5 0).2 [2, 4] (by decide)⟩

/-- C8 fails as stated: container 0 of `strayTree` has no eligible node (it
holds no node), the raw walk is the single node 1 and ends at once, yet the
raw default 1 wants keyboard focus, so `getDefaultComponent 0` returns 1 and
`getAllComponents 0` returns `[1]`. -/
theorem zero_eligible_default_returned :
    (∀ x, ¬ (strayTree.getWantsKeyboardFocus x = true ∧ strayTree.isParentOf 0 x = true)) ∧
    strayTree.createFocusTraverser 0 = some strayTraverser ∧
    ListOrdered strayTraverser [1] ∧
    rawWalkEnds strayTraverser Direction.Forwards 1 1 = true ∧
    (∀ fuel, getDefaultComponent strayTree fuel 0 = some (some 1)) ∧
    (∀ fuel, 1 < fuel → getAllComponents strayTree fuel 0 = some [1]) := by
  have h1 : ListOrdered strayTraverser [1] := listTraverser_listOrdered (some 1) (by decide)
  refine ⟨?_, rfl, h1, by decide, fun _ => rfl, ?_⟩
  · intro x h
    have h2 := h.2
    simp [strayTree, mkTree] at h2
  · intro fuel hf
    rw [getAllComponents_of_listOrdered strayTree strayTraverser h1 0 rfl fuel hf]
    rfl

/-- C8, amended: let no node both want keyboard focus and lie inside `C`.
When the raw default of `C`, if any, lies inside `C` whenever it wants
keyboard focus, and the forward raw walk from it ends within `n` steps,
`getDefaultComponent C` is none and `getAllComponents C` is empty; and for
every `m` whose focus container is `C` and whose raw walks from `m` end within
`n` steps, `getNextComponent m` and `getPreviousComponent m` are none (for
every fuel from `n` on). -/
theorem zero_eligible_none (tree : ComponentTree) (C : Component) (n fuel : Nat)
    (hfuel : n ≤ fuel)
    (hzero : ∀ x, ¬ (tree.getWantsKeyboardFocus x = true ∧ tree.isParentOf C x = true)) :
    ((∀ t d, tree.createFocusTraverser C = some t → t.getDefaultComponent C = some d →
        (tree.getWantsKeyboardFocus d = true → tree.isParentOf C d = true) ∧
        rawWalkEnds t Direction.Forwards n d = true) →
      getDefaultComponent tree fuel C = some none ∧ getAllComponents tree fuel C = some []) ∧
    (∀ m, tree.findFocusContainer m = C →
      (∀ t, tree.createFocusTraverser m = some t →
        rawWalkEnds t Direction.Forwards n m = true ∧
        rawWalkEnds t Direction.Backwards n m = true) →
      getNextComponent tree fuel m = some none ∧
      getPreviousComponent tree fuel m = some none) := by
  constructor
  · intro hdefault
    have hdef : getDefaultComponent tree fuel C = some none := by
      unfold getDefaultComponent
      cases ht : tree.createFocusTraverser C with
      | none => rfl
      | some t =>
        simp only []
        cases hd : t.getDefaultComponent C with
        | none => rfl
        | some d =>
          obtain ⟨hin, hends⟩ := hdefault t d ht hd
          have hw : ¬ tree.getWantsKeyboardFocus d = true := fun hw => hzero d ⟨hw, hin hw⟩
          simp only []
          rw [if_neg hw]
          exact findComponent_none_of_no_eligible tree t C Direction.Forwards hzero n fuel d
            hends hfuel
    refine ⟨hdef, ?_⟩
    unfold getAllComponents
    rw [hdef]
    cases ht : tree.createFocusTraverser C with
    | none => rfl
    | some t => simp [getAllLoop]
  · intro m hm hwalk
    unfold getNextComponent getPreviousComponent getComponent
    cases ht : tree.createFocusTraverser m with
    | none => exact ⟨rfl, rfl⟩
    | some t =>
      obtain ⟨hf, hb⟩ := hwalk t ht
      simp only [hm]
      exact ⟨findComponent_none_of_no_eligible tree t C Direction.Forwards hzero n fuel m
          hf hfuel,
        findComponent_none_of_no_eligible tree t C Direction.Backwards hzero n fuel m
          hb hfuel⟩

/-- C8 amended, at `quietTree`: container 0 holds 1 and 2, which do not want
focus; node 3 wants focus but is outside; every operation yields none/empty. -/
theorem zero_eligible_none_witness :
    getDefaultComponent quietTree 3 0 = some none ∧
    getAllComponents quietTree 3 0 = some [] ∧
    getNextComponent quietTree 3 2 = some none ∧
    getPreviousComponent quietTree 3 2 = some none := by
  have hzero : ∀ x, ¬ (quietTree.getWantsKeyboardFocus x = true ∧
      quietTree.isParentOf 0 x = true) := by
    intro x h
    have h1 := h.1
    have h2 := h.2
    simp [quietTree, mkTree] at h1 h2
    rw [h1] at h2
    exact absurd h2 (by decide)
  have h := zero_eligible_none quietTree 0 3 3 (le_refl 3) hzero
  have hd := h.1 (by
    intro t d ht hd
    have ht2 : quietTraverser = t := Option.some.inj ht
    subst ht2
    have hd2 : 1 = d := Option.some.inj hd
    subst hd2
    exact ⟨by decide, by decide⟩)
  have hm := h.2 2 rfl (by
    intro t ht
    have ht2 : quietTraverser = t := Option.some.inj ht
    subst ht2
    exact ⟨by decide, by decide⟩)
  exact ⟨hd.1, hd.2, hm.1, hm.2⟩

/-- C9 fails as stated: in `lateTree` the traverser of container 0 is
list-ordered over 1, 2 (both inside 0), node 1 is the only one that wants
keyboard focus and has focus container 0, but the raw default is 2, after it:
`getDefaultComponent 0` is none and `getAllComponents 0` is empty. -/
theorem single_eligible_default_missed :
    lateTree.createFocusTraverser 0 = some tailTraverser ∧
    lateTree.createFocusTraverser 1 = some tailTraverser ∧
    ListOrdered tailTraverser [1, 2] ∧
    (∀ x ∈ [1, 2], lateTree.isParentOf 0 x = true) ∧
    lateTree.getWantsKeyboardFocus 1 = true ∧
    (∀ x ∈ [1, 2], lateTree.getWantsKeyboardFocus x = true → x = 1) ∧
    lateTree.findFocusContainer 1 = 0 ∧
    (∀ fuel, 2 < fuel → getDefaultComponent lateTree fuel 0 = some none) ∧
    (∀ fuel, 2 < fuel → getAllComponents lateTree fuel 0 = some []) := by
  have h1 : ListOrdered tailTraverser [1, 2] := listTraverser_listOrdered (some 2) (by decide)
  refine ⟨rfl, rfl, h1, by decide, by decide, by decide, rfl, ?_, ?_⟩
  · intro fuel hf
    rw [getDefaultComponent_of_listOrdered lateTree tailTraverser h1 0 rfl fuel hf]
    rfl
  · intro fuel hf
    rw [getAllComponents_of_listOrdered lateTree tailTraverser h1 0 rfl fuel hf]
    rfl

/-- C9, amended: let the traverser of `C` be list-ordered over `L`, every node
of `L` lie inside `C`, `D` be the one node of `L` that wants keyboard focus,
`C` be the focus container of `D`, the traverser of `D` be list-ordered over
the same `L`, and the raw default of `C` be `D` or a node before `D` in `L`
(the head of `L`, for instance).  Then `getDefaultComponent C` is `D`,
`getNextComponent D` and `getPreviousComponent D` are none, and
`getAllComponents C` is `[D]`. -/
theorem single_eligible (tree : ComponentTree) (t : ComponentTraverser)
    (L : List Component) (C D d : Component)
    (ht : tree.createFocusTraverser C = some t) (hord : ListOrdered t L)
    (hinside : ∀ x ∈ L, tree.isParentOf C x = true)
    (hD : D ∈ L) (hwants : tree.getWantsKeyboardFocus D = true)
    (huniq : ∀ x ∈ L, tree.getWantsKeyboardFocus x = true → x = D)
    (hcontainer : tree.findFocusContainer D = C)
    (hsame : ∃ tD, tree.createFocusTraverser D = some tD ∧ ListOrdered tD L)
    (hdefault : t.getDefaultComponent C = some d)
    (hbefore : d = D ∨ D ∈ nodesAfter L d) :
    ∀ fuel, L.length < fuel →
      getDefaultComponent tree fuel C = some (some D) ∧
      getNextComponent tree fuel D = some none ∧
      getPreviousComponent tree fuel D = some none ∧
      getAllComponents tree fuel C = some [D] := by
  intro fuel hfuel
  have hnone : ∀ M : List Component, M.Nodup → (∀ x ∈ M, x ∈ L) →
      (nodesAfter M D).find? (eligible tree C) = none := by
    intro M hM hsub
    rw [List.find?_eq_none]
    intro x hx he
    have hxw : tree.getWantsKeyboardFocus x = true := by
      simp [eligible] at he
      exact he.1
    have hxD := huniq x (hsub x (mem_of_mem_nodesAfter hx)) hxw
    subst hxD
    exact not_mem_nodesAfter_self x hM hx
  have hfwd := hnone L hord.1 (fun _ h => h)
  have hbwd := hnone L.reverse (List.nodup_reverse.2 hord.1) (fun _ h => List.mem_reverse.1 h)
  have hdef : getDefaultComponent tree fuel C = some (some D) := by
    rw [getDefaultComponent_of_listOrdered tree t hord C ht fuel hfuel, hdefault]
    simp only []
    rcases hbefore with e | hafter
    · subst e
      rw [if_pos hwants]
    · have hdL : d ∈ L := by
        by_contra hnot
        rw [nodesAfter_of_not_mem hnot] at hafter
        simp at hafter
      have hdD : d ≠ D := by
        intro e
        subst e
        exact not_mem_nodesAfter_self d hord.1 hafter
      have hw : ¬ tree.getWantsKeyboardFocus d = true := fun hw => hdD (huniq d hdL hw)
      rw [if_neg hw]
      have heD : eligible tree C D = true := by
        simp [eligible, hwants, hinside D hD]
      rw [find_eq_some_of_unique hafter heD]
      intro x hx he
      have hxw : tree.getWantsKeyboardFocus x = true := by
        simp [eligible] at he
        exact he.1
      exact huniq x (mem_of_mem_nodesAfter hx) hxw
  obtain ⟨tD, htD, hordD⟩ := hsame
  have hnav := getComponent_of_listOrdered tree tD hordD D C htD hcontainer fuel hfuel
  refine ⟨hdef, by rw [hnav.1, hfwd], by rw [hnav.2, hbwd], ?_⟩
  obtain ⟨start, hstart, hall⟩ := getAllComponents_shape tree t hord C ht fuel hfuel
  have hs : start = some D := Option.some.inj (hstart.symm.trans hdef)
  subst hs
  rw [hall]
  have hnil : (nodesAfter L D).filter (eligible tree C) = [] := by
    rw [List.filter_eq_nil_iff]
    exact List.find?_eq_none.1 hfwd
  simp [hnil]

/-- C9 amended, at `singleTree`: raw order 1, 2, 3, 4 with raw default 1 and
node 3 the only one that wants keyboard focus. -/
theorem single_eligible_witness :
    getDefaultComponent singleTree 5 0 = some (some 3) ∧
    getNextComponent singleTree 5 3 = some none ∧
    getPreviousComponent singleTree 5 3 = some none ∧
    getAllComponents singleTree 5 0 = some [3] :=
  single_eligible singleTree headTraverser [1, 2, 3, 4] 0 3 1 rfl
    (listTraverser_listOrdered (some 1) (by decide)) (by decide) (by decide) (by decide)
    (by decide) rfl
    ⟨headTraverser, rfl, listTraverser_listOrdered (some 1) (by decide)⟩ rfl
    (Or.inr (by decide)) 5 (by decide)

/-- C10 fails as stated: with a raw traverser whose step from 1 yields 1
again, node 1 eligible inside container 0, the walk started at 1 returns 1,
and so do `getNextComponent 1` and `getPreviousComponent 1`. -/
theorem findComponent_returns_start :
    selfTree.createFocusTraverser 1 = some selfTraverser ∧
    (∀ fuel dir, findComponent selfTree selfTraverser (fuel + 1) 1 0 dir = some (some 1)) ∧
    (∀ fuel, getNextComponent selfTree (fuel + 1) 1 = some (some 1)) ∧
    (∀ fuel, getPreviousComponent selfTree (fuel + 1) 1 = some (some 1)) := by
  refine ⟨rfl, ?_, fun _ => rfl, fun _ => rfl⟩
  intro fuel dir
  cases dir <;> rfl

/-- C10, amended: for every raw traverser that only advances in direction
`dir` (each raw step raises a rank on the nodes), every start node and
boundary, the result of `findComponent` is never the start node; so
`getNextComponent c` and `getPreviousComponent c` are never `c` when the
traverser of `c` only advances in that direction. -/
theorem findComponent_ne_start (tree : ComponentTree) (t : ComponentTraverser)
    (dir : Direction) (rank : Component → Nat)
    (hadv : ∀ x y, traverse t x dir = some y → rank x < rank y)
    (fuel : Nat) (c B : Component) :
    findComponent tree t fuel c B dir ≠ some (some c) ∧
    (tree.createFocusTraverser c = some t → dir = Direction.Forwards →
      getNextComponent tree fuel c ≠ some (some c)) ∧
    (tree.createFocusTraverser c = some t → dir = Direction.Backwards →
      getPreviousComponent tree fuel c ≠ some (some c)) := by
  have hne : ∀ B, findComponent tree t fuel c B dir ≠ some (some c) := by
    intro B h
    exact lt_irrefl _ (findComponent_rank_lt tree t B dir rank hadv fuel c c h)
  refine ⟨hne B, ?_, ?_⟩
  · intro ht hdir
    subst hdir
    unfold getNextComponent getComponent
    simp only [ht]
    exact hne _
  · intro ht hdir
    subst hdir
    unfold getPreviousComponent getComponent
    simp only [ht]
    exact hne _

/-- C10 amended, at the demo tree, whose raw order 1, 2, 3, 4 only advances:
the forward walk from 2 returns 4, not 2. -/
theorem findComponent_ne_start_witness :
    findComponent demoTree demoTraverser 3 2 0 Direction.Forwards = some (some 4) ∧
    findComponent demoTree demoTraverser 3 2 0 Direction.Forwards ≠ some (some 2) ∧
    getNextComponent demoTree 3 2 ≠ some (some 2) :=
  ⟨by decide,
    (findComponent_ne_start demoTree demoTraverser Direction.Forwards
      (fun x => [1, 2, 3, 4].length - (nodesAfter [1, 2, 3, 4] x).length)
      (step_raises_position demoTraverser Direction.Forwards (by decide) (fun _ => rfl))
      3 2 0).1,
    (findComponent_ne_start demoTree demoTraverser Direction.Forwards
      (fun x => [1, 2, 3, 4].length - (nodesAfter [1, 2, 3, 4] x).length)
      (step_raises_position demoTraverser Direction.Forwards (by decide) (fun _ => rfl))
      3 2 0).2.1 rfl rfl⟩

/-- C11: when `createFocusTraverser` of the argument yields no traverser,
`getNextComponent`, `getPreviousComponent` and `getDefaultComponent` return
none and `getAllComponents` returns the empty list (whatever the fuel);
`getDefaultComponent` also returns none when the traverser exists but has no
raw default. -/
theorem absent_traverser_empty (tree : ComponentTree) (fuel : Nat) (c : Component) :
    (tree.createFocusTraverser c = none →
      getNextComponent tree fuel c = some none ∧
      getPreviousComponent tree fuel c = some none ∧
      getDefaultComponent tree fuel c = some none ∧
      getAllComponents tree fuel c = some []) ∧
    (∀ t, tree.createFocusTraverser c = some t → t.getDefaultComponent c = none →
      getDefaultComponent tree fuel c = some none) := by
  constructor
  · intro h
    refine ⟨?_, ?_, ?_, ?_⟩
    · simp [getNextComponent, getComponent, h]
    · simp [getPreviousComponent, getComponent, h]
    · simp [getDefaultComponent, h]
    · simp [getAllComponents, h]
  · intro t ht hd
    unfold getDefaultComponent
    simp only [ht, hd]

/-- C11 at `bareTree`, which has no traverser, and at the demo tree, whose
traverser has no raw default. -/
theorem absent_traverser_empty_witness :
    (getNextComponent bareTree 0 1 = some none ∧
      getPreviousComponent bareTree 0 1 = some none ∧
      getDefaultComponent bareTree 0 0 = some none ∧
      getAllComponents bareTree 0 0 = some []) ∧
    getDefaultComponent demoTree 0 0 = some none :=
  ⟨⟨((absent_traverser_empty bareTree 0 1).1 rfl).1,
      ((absent_traverser_empty bareTree 0 1).1 rfl).2.1,
      ((absent_traverser_empty bareTree 0 0).1 rfl).2.2.1,
      ((absent_traverser_empty bareTree 0 0).1 rfl).2.2.2⟩,
    (absent_traverser_empty demoTree 0 0).2 demoTraverser rfl rfl⟩

/-- C12: for a raw traverser that is list-ordered over a duplicate-free
`L = pre ++ c :: post`, the walk from `c` terminates in either direction: with
fuel for one call per node beyond `c` plus one it returns, having taken at
most that many raw steps, and every larger fuel gives the same result.  For any
traverser, the walk ends at once, after one raw step, when that step yields
none. -/
theorem findComponent_terminates_bounded (tree : ComponentTree) (t : ComponentTraverser)
    (L pre post : List Component) (c B : Component) (hord : ListOrdered t L)
    (hsplit : L = pre ++ c :: post) :
    (∃ r k, findComponentSteps tree t (post.length + 1) c B Direction.Forwards = some (r, k) ∧
      k ≤ post.length + 1 ∧
      ∀ fuel, post.length < fuel →
        findComponent tree t fuel c B Direction.Forwards = some r) ∧
    (∃ r k, findComponentSteps tree t (pre.length + 1) c B Direction.Backwards = some (r, k) ∧
      k ≤ pre.length + 1 ∧
      ∀ fuel, pre.length < fuel →
        findComponent tree t fuel c B Direction.Backwards = some r) ∧
    (∀ (t2 : ComponentTraverser) (x : Component) (dir : Direction) (fuel : Nat),
      traverse t2 x dir = none →
      findComponentSteps tree t2 (fuel + 1) x B dir = some (none, 1) ∧
      findComponent tree t2 (fuel + 1) x B dir = some none) := by
  obtain ⟨hpost, hpre⟩ := nodesAfter_of_split hord.1 hsplit
  refine ⟨?_, ?_, ?_⟩
  · obtain ⟨k, hk, hle⟩ := findComponentSteps_of_step tree t Direction.Forwards hord.1
      (traverse_forwards_of_listOrdered hord) B (post.length + 1) c (by rw [hpost]; omega)
    rw [hpost] at hk hle
    refine ⟨_, k, hk, hle, ?_⟩
    intro fuel hf
    have h := findComponent_of_step tree t Direction.Forwards hord.1
      (traverse_forwards_of_listOrdered hord) B fuel c (by rw [hpost]; exact hf)
    rw [hpost] at h
    exact h
  · have hlen : (pre.reverse).length = pre.length := List.length_reverse pre
    obtain ⟨k, hk, hle⟩ := findComponentSteps_of_step tree t Direction.Backwards
      (List.nodup_reverse.2 hord.1) (traverse_backwards_of_listOrdered hord) B
      (pre.length + 1) c (by rw [hpre, hlen]; omega)
    rw [hpre] at hk hle
    rw [hlen] at hle
    refine ⟨_, k, hk, hle, ?_⟩
    intro fuel hf
    have h := findComponent_of_step tree t Direction.Backwards
      (List.nodup_reverse.2 hord.1) (traverse_backwards_of_listOrdered hord) B fuel c
      (by rw [hpre, hlen]; exact hf)
    rw [hpre] at h
    exact h
  · intro t2 x dir fuel hnone
    constructor
    · simp [findComponentSteps, hnone]
    · simp [findComponent, hnone]

/-- C12 at the demo tree: from node 2 of the raw order 1, 2, 3, 4 the forward
walk returns 4 after two raw steps (two nodes remain, bound three); the
backward walk returns 1 after one raw step. -/
theorem findComponent_terminates_bounded_witness :
    findComponentSteps demoTree demoTraverser 3 2 0 Direction.Forwards = some (some 4, 2) ∧
    findComponentSteps demoTree demoTraverser 2 2 0 Direction.Backwards = some (some 1, 1) ∧
    (∃ r k, findComponentSteps demoTree demoTraverser 3 2 0 Direction.Forwards = some (r, k) ∧
      k ≤ 3 ∧
      ∀ fuel, 2 < fuel →
        findComponent demoTree demoTraverser fuel 2 0 Direction.Forwards = some r) :=
  ⟨by decide, by decide,
    (findComponent_terminates_bounded demoTree demoTraverser [1, 2, 3, 4] [1] [3, 4] 2 0
      (listTraverser_listOrdered none (by decide)) rfl).1⟩

/-- C13: when the traverser of `parent` is list-ordered over `L` and its raw
default `d` does not want keyboard focus, `getDefaultComponent parent` is the
forward walk `findComponent` from `d` with boundary `parent`; so when
`L = pre ++ d :: post` and no node of `post` is eligible, it is none, whatever
the nodes of `pre` are. -/
theorem getDefaultComponent_forward_only (tree : ComponentTree) (t : ComponentTraverser)
    (L : List Component) (parent d : Component)
    (ht : tree.createFocusTraverser parent = some t) (hord : ListOrdered t L)
    (hd : t.getDefaultComponent parent = some d)
    (hw : tree.getWantsKeyboardFocus d = false) :
    (∀ fuel, getDefaultComponent tree fuel parent
        = findComponent tree t fuel d parent Direction.Forwards) ∧
    (∀ pre post, L = pre ++ d :: post →
      (∀ n ∈ post, ¬ (tree.getWantsKeyboardFocus n = true ∧
        tree.isParentOf parent n = true)) →
      ∀ fuel, post.length < fuel → getDefaultComponent tree fuel parent = some none) := by
  have hfirst : ∀ fuel, getDefaultComponent tree fuel parent
      = findComponent tree t fuel d parent Direction.Forwards := by
    intro fuel
    unfold getDefaultComponent
    simp only [ht, hd, hw]
    rfl
  refine ⟨hfirst, ?_⟩
  intro pre post hsplit hnone fuel hfuel
  obtain ⟨hpost, _⟩ := nodesAfter_of_split hord.1 hsplit
  rw [hfirst fuel, findComponent_of_step tree t Direction.Forwards hord.1
    (traverse_forwards_of_listOrdered hord) parent fuel d (by rw [hpost]; exact hfuel), hpost]
  congr 1
  rw [List.find?_eq_none]
  intro x hx he
  apply hnone x hx
  simpa [eligible] using he

/-- C13 at `lateTree`: raw order 1, 2 inside container 0 with raw default 2;
node 1, before the default, is eligible, yet `getDefaultComponent 0` is none. -/
theorem getDefaultComponent_forward_only_witness :
    (lateTree.getWantsKeyboardFocus 1 = true ∧ lateTree.isParentOf 0 1 = true) ∧
    (∀ fuel, getDefaultComponent lateTree fuel 0
        = findComponent lateTree tailTraverser fuel 2 0 Direction.Forwards) ∧
    getDefaultComponent lateTree 1 0 = some none :=
  ⟨by decide,
    (getDefaultComponent_forward_only lateTree tailTraverser [1, 2] 0 2 rfl
      (listTraverser_listOrdered (some 2) (by decide)) rfl (by decide)).1,
    (getDefaultComponent_forward_only lateTree tailTraverser [1, 2] 0 2 rfl
      (listTraverser_listOrdered (some 2) (by decide)) rfl (by decide)).2 [1] [] rfl
      (by decide) 1 (by decide)⟩

/-- C14: let the raw order be `L = pre ++ X :: post`, list-ordered, and let
no node after `X` be focus-eligible inside `C` (`X` is the last eligible node
of `C`).  Then the forward walk from `X` with boundary `C` is none, whatever
follows `X`, while the forward walk from `X` with boundary `G` returns the
first node after `X` that wants keyboard focus and lies inside `G`; that node
is not inside `C`, and the result is none only if no such node follows. -/
theorem boundary_clipping (tree : ComponentTree) (t : ComponentTraverser)
    (L pre post : List Component) (X C G : Component) (hord : ListOrdered t L)
    (hsplit : L = pre ++ X :: post)
    (hlast : ∀ n ∈ post, ¬ (tree.getWantsKeyboardFocus n = true ∧
      tree.isParentOf C n = true)) :
    ∀ fuel, post.length < fuel →
      findComponent tree t fuel X C Direction.Forwards = some none ∧
      findComponent tree t fuel X G Direction.Forwards
        = some (post.find? (fun n => tree.getWantsKeyboardFocus n && tree.isParentOf G n)) ∧
      (post.find? (fun n => tree.getWantsKeyboardFocus n && tree.isParentOf G n) = none ↔
        ∀ n ∈ post, ¬ (tree.getWantsKeyboardFocus n = true ∧ tree.isParentOf G n = true)) ∧
      (∀ r, post.find? (fun n => tree.getWantsKeyboardFocus n && tree.isParentOf G n) = some r →
        r ∈ post ∧ tree.isParentOf C r = false) := by
  intro fuel hfuel
  obtain ⟨hpost, _⟩ := nodesAfter_of_split hord.1 hsplit
  have hwalk : ∀ B, findComponent tree t fuel X B Direction.Forwards
      = some (post.find? (eligible tree B)) := by
    intro B
    have h := findComponent_of_step tree t Direction.Forwards hord.1
      (traverse_forwards_of_listOrdered hord) B fuel X (by rw [hpost]; exact hfuel)
    rw [hpost] at h
    exact h
  refine ⟨?_, hwalk G, by simp, ?_⟩
  · rw [hwalk C]
    congr 1
    rw [List.find?_eq_none]
    intro x hx he
    apply hlast x hx
    simpa [eligible] using he
  · intro r hr
    have hmem : r ∈ post := List.mem_of_find?_eq_some hr
    have hp := List.find?_some hr
    simp only [Bool.and_eq_true] at hp
    refine ⟨hmem, ?_⟩
    cases hC : tree.isParentOf C r with
    | false => rfl
    | true => exact absurd ⟨hp.1, hC⟩ (hlast r hmem)

/-- C14 at `nestedTree`: node 2 is the last eligible node of container 20;
with boundary 20 the forward walk from 2 is none, with boundary 10 it skips 3
and returns 4. -/
theorem boundary_clipping_witness :
    (∀ n, nestedTree.isParentOf 20 n = true → nestedTree.isParentOf 10 n = true) ∧
    (nestedTree.getWantsKeyboardFocus 2 = true ∧ nestedTree.isParentOf 20 2 = true) ∧
    findComponent nestedTree headTraverser 3 2 20 Direction.Forwards = some none ∧
    findComponent nestedTree headTraverser 3 2 10 Direction.Forwards = some (some 4) := by
  have h := boundary_clipping nestedTree headTraverser [1, 2, 3, 4] [1] [3, 4] 2 20 10
    (listTraverser_listOrdered (some 1) (by decide)) rfl (by decide) 3 (by decide)
  refine ⟨?_, by decide, h.1, h.2.1⟩
  intro n hn
  simp [nestedTree, mkTree] at hn ⊢
  rcases hn with hn | hn
  · simp [hn]
  · simp [hn]

/-- C16: with the containment test of the spec (`isParentOfSpec`, the
container contains itself and its descendants), when the raw step from the
current node yields the boundary container `B` itself and `B` wants keyboard
focus, `findComponent` returns `B`. -/
theorem findComponent_returns_boundary (tree : ComponentTree) (t : ComponentTraverser)
    (descendants : Component → List Component) (c B : Component) (dir : Direction)
    (hmodel : tree.isParentOf = isParentOfSpec descendants)
    (hstep : traverse t c dir = some B)
    (hwants : tree.getWantsKeyboardFocus B = true) :
    ∀ fuel, findComponent tree t (fuel + 1) c B dir = some (some B) := by
  intro fuel
  unfold findComponent
  simp [hstep, hwants, hmodel, isParentOfSpec]

/-- C16 at `reflexiveTree`: the raw step from 1 yields container 0, which
wants keyboard focus; the walk from 1 with boundary 0 returns 0. -/
theorem findComponent_returns_boundary_witness :
    findComponent reflexiveTree (listTraverser [1, 0, 2] none) 1 1 0 Direction.Forwards
      = some (some 0) :=
  findComponent_returns_boundary reflexiveTree (listTraverser [1, 0, 2] none)
    (fun b => if b = 0 then [1, 2] else []) 1 0 Direction.Forwards rfl rfl (by decide) 0

/-- C15 fails as stated: in `twoDefaultTree` container 20 (nodes 1, 2) is
nested in container 10, both see the raw order 1, 2, 3, the raw default of 20
is node 2 (inside 20, after the raw default 1 of container 10), and nodes 1, 2
want keyboard focus.  `getAllComponents 20` is `[2]`, a subsequence of
`getAllComponents 10 = [1, 2]`, but the elements of the latter inside 20 are
`[1, 2]`. -/
theorem getAllComponents_nested_not_exact :
    twoDefaultTree.createFocusTraverser 10 = some twoDefaultTraverser ∧
    twoDefaultTree.createFocusTraverser 20 = some twoDefaultTraverser ∧
    ListOrdered twoDefaultTraverser [1, 2, 3] ∧
    (∀ n, twoDefaultTree.isParentOf 20 n = true → twoDefaultTree.isParentOf 10 n = true) ∧
    twoDefaultTraverser.getDefaultComponent 10 = some 1 ∧
    twoDefaultTraverser.getDefaultComponent 20 = some 2 ∧
    twoDefaultTree.isParentOf 20 2 = true ∧
    2 ∈ nodesAfter [1, 2, 3] 1 ∧
    (∀ fuel, 3 < fuel → getAllComponents twoDefaultTree fuel 20 = some [2]) ∧
    (∀ fuel, 3 < fuel → getAllComponents twoDefaultTree fuel 10 = some [1, 2]) ∧
    [1, 2].filter (fun n => twoDefaultTree.isParentOf 20 n) = [1, 2] := by
  have hord : ListOrdered twoDefaultTraverser [1, 2, 3] :=
    ⟨by decide, fun _ => rfl, fun _ => rfl⟩
  refine ⟨rfl, rfl, hord, ?_, rfl, rfl, by decide, by decide, ?_, ?_, by decide⟩
  · intro n hn
    simp [twoDefaultTree, mkTree] at hn ⊢
    rcases hn with hn | hn
    · simp [hn]
    · simp [hn]
  · intro fuel hf
    rw [getAllComponents_of_listOrdered twoDefaultTree twoDefaultTraverser hord 20 rfl fuel hf]
    rfl
  · intro fuel hf
    rw [getAllComponents_of_listOrdered twoDefaultTree twoDefaultTraverser hord 10 rfl fuel hf]
    rfl

/-- C15, amended: let `C` be nested inside `G` (every node inside `C` is inside
`G`), the traversers of both be list-ordered over the same `L`, and the raw
default `dC` of `C` lie inside `C` and be the raw default `dG` of `G` or a node
after it.  Then `getAllComponents C` is a subsequence of `getAllComponents G`
and all its elements lie inside `C`; and it consists of exactly the elements of
`getAllComponents G` that lie inside `C` when no node from `dG` on that
precedes `dC` both wants keyboard focus and lies inside `C`. -/
theorem getAllComponents_nested (tree : ComponentTree) (tG tC : ComponentTraverser)
    (L : List Component) (C G dG dC : Component)
    (htG : tree.createFocusTraverser G = some tG)
    (htC : tree.createFocusTraverser C = some tC)
    (hordG : ListOrdered tG L) (hordC : ListOrdered tC L)
    (hnested : ∀ n, tree.isParentOf C n = true → tree.isParentOf G n = true)
    (hdG : tG.getDefaultComponent G = some dG) (hdC : tC.getDefaultComponent C = some dC)
    (hinC : tree.isParentOf C dC = true)
    (hnb : dC = dG ∨ dC ∈ nodesAfter L dG) :
    ∀ fuel, L.length < fuel →
      ∃ allC allG, getAllComponents tree fuel C = some allC ∧
        getAllComponents tree fuel G = some allG ∧
        allC.Sublist allG ∧
        (∀ x ∈ allC, tree.isParentOf C x = true) ∧
        ((∀ x, (x = dG ∨ x ∈ nodesAfter L dG) → dC ∈ nodesAfter L x →
            ¬ (tree.getWantsKeyboardFocus x = true ∧ tree.isParentOf C x = true)) →
          allC = allG.filter (fun n => tree.isParentOf C n)) := by
  intro fuel hfuel
  have hallG := getAllComponents_of_listOrdered tree tG hordG G htG fuel hfuel
  have hallC := getAllComponents_of_listOrdered tree tC hordC C htC fuel hfuel
  rw [hdG] at hallG
  rw [hdC] at hallC
  simp only [] at hallG hallC
  refine ⟨_, _, hallC, hallG, ?_, ?_, ?_⟩
  all_goals
    have hC1 : (if tree.getWantsKeyboardFocus dC = true then [dC] else [])
          ++ (nodesAfter L dC).filter (eligible tree C)
        = (dC :: nodesAfter L dC).filter (eligible tree C) := by
      by_cases hw : tree.getWantsKeyboardFocus dC = true
      · have he : eligible tree C dC = true := by simp [eligible, hw, hinC]
        simp [hw, List.filter_cons, he]
      · have he : ¬ eligible tree C dC = true := by simp [eligible, hw]
        simp [hw, List.filter_cons, he]
    have hsubEG : ∀ N : List Component,
        (N.filter (eligible tree C)).Sublist (N.filter (eligible tree G)) := by
      intro N
      rw [filter_eligible_nested tree C G hnested N]
      exact List.filter_sublist _
  · rcases hnb with e | hafter
    · subst e
      exact List.Sublist.append (List.Sublist.refl _) (hsubEG _)
    · obtain ⟨mid, hsplit, _, _⟩ := nodesAfter_split_at hordG.1 hafter
      rw [hC1]
      have h1 : ((dC :: nodesAfter L dC).filter (eligible tree C)).Sublist
          ((nodesAfter L dG).filter (eligible tree C)) := by
        rw [hsplit, List.filter_append]
        exact List.sublist_append_right _ _
      exact (h1.trans (hsubEG _)).trans (List.sublist_append_right _ _)
  · intro x hx
    rw [hC1] at hx
    have he := (List.mem_filter.1 hx).2
    simp only [eligible, Bool.and_eq_true] at he
    exact he.2
  · intro hclean
    have hfG : ((if tree.getWantsKeyboardFocus dG = true then [dG] else [])
          ++ (nodesAfter L dG).filter (eligible tree G)).filter
            (fun n => tree.isParentOf C n)
        = (dG :: nodesAfter L dG).filter (eligible tree C) := by
      rw [List.filter_append, ← filter_eligible_nested tree C G hnested]
      by_cases hw : tree.getWantsKeyboardFocus dG = true
      · by_cases hin : tree.isParentOf C dG = true
        · have he : eligible tree C dG = true := by simp [eligible, hw, hin]
          simp [hw, hin, List.filter_cons, he]
        · have he : ¬ eligible tree C dG = true := by simp [eligible, hw, hin]
          simp [hw, hin, List.filter_cons, he]
      · have he : ¬ eligible tree C dG = true := by simp [eligible, hw]
        simp [hw, List.filter_cons, he]
    rw [hfG, hC1]
    rcases hnb with e | hafter
    · subst e
      rfl
    · obtain ⟨mid, hsplit, _, hmid⟩ := nodesAfter_split_at hordG.1 hafter
      have heG : ¬ eligible tree C dG = true := by
        intro he
        apply hclean dG (Or.inl rfl) hafter
        simpa [eligible] using he
      have hmidnil : mid.filter (eligible tree C) = [] := by
        rw [List.filter_eq_nil_iff]
        intro z hz he
        apply hclean z (Or.inr (hmid z hz).1) (hmid z hz).2
        simpa [eligible] using he
      have hG2 : (dG :: nodesAfter L dG).filter (eligible tree C)
          = (dC :: nodesAfter L dC).filter (eligible tree C) := by
        rw [List.filter_cons, if_neg heG, hsplit, List.filter_append, hmidnil]
        rfl
      exact hG2.symm

/-- C15 amended, at `twoDefaultCleanTree`: container 20 (node 2) is nested in
container 10, raw order 1, 2, 3, raw default 2 for container 20 and 1 for
container 10; node 1 does not want keyboard focus. -/
theorem getAllComponents_nested_witness :
    getAllComponents twoDefaultCleanTree 4 20 = some [2] ∧
    getAllComponents twoDefaultCleanTree 4 10 = some [2, 3] ∧
    [2].Sublist [2, 3] ∧
    [2] = [2, 3].filter (fun n => twoDefaultCleanTree.isParentOf 20 n) := by
  have hord : ListOrdered twoDefaultTraverser [1, 2, 3] :=
    ⟨by decide, fun _ => rfl, fun _ => rfl⟩
  have hnested : ∀ n, twoDefaultCleanTree.isParentOf 20 n = true →
      twoDefaultCleanTree.isParentOf 10 n = true := by
    intro n hn
    simp [twoDefaultCleanTree, mkTree] at hn ⊢
    simp [hn]
  obtain ⟨allC, allG, hC, hG, hsub, _, hexact⟩ :=
    getAllComponents_nested twoDefaultCleanTree twoDefaultTraverser twoDefaultTraverser
      [1, 2, 3] 20 10 1 2 rfl rfl hord hord hnested rfl rfl (by decide)
      (Or.inr (by decide)) 4 (by decide)
  have e1 : getAllComponents twoDefaultCleanTree 4 20 = some [2] := by decide
  have e2 : getAllComponents twoDefaultCleanTree 4 10 = some [2, 3] := by decide
  have hA : allC = [2] := Option.some.inj (hC.symm.trans e1)
  have hB : allG = [2, 3] := Option.some.inj (hG.symm.trans e2)
  subst hA
  subst hB
  refine ⟨e1, e2, hsub, hexact ?_⟩
  intro x hx h2
  rcases hx with hx | hx
  · subst hx
    intro hw
    exact absurd hw.1 (by decide)
  · have hx2 : x = 2 ∨ x = 3 := by simpa [nodesAfter] using hx
    rcases hx2 with hx2 | hx2
    · subst hx2
      exact absurd h2 (by decide)
    · subst hx2
      exact absurd h2 (by decide)

/-- C17: when the traverser `t` of `parent` exists and the forward raw walk
from its raw default ends within `n` steps, `getAllComponents parent` and
`getDefaultComponent parent` both return (for every fuel from `n` on); the
list is empty if and only if the default is none; otherwise its first element
is the default, and each later element is what
`findComponent t previous parent Forwards` returns for the element before it. -/
theorem getAllComponents_anchored (tree : ComponentTree) (t : ComponentTraverser)
    (parent : Component) (n fuel : Nat)
    (ht : tree.createFocusTraverser parent = some t)
    (hfinite : ∀ d, t.getDefaultComponent parent = some d →
      rawWalkEnds t Direction.Forwards n d = true)
    (hfuel : n ≤ fuel) :
    ∃ all start, getAllComponents tree fuel parent = some all ∧
      getDefaultComponent tree fuel parent = some start ∧
      (all = [] ↔ start = none) ∧
      all.head? = start ∧
      List.Chain' (fun a b =>
        findComponent tree t fuel a parent Direction.Forwards = some (some b)) all := by
  have hdef : ∃ start, getDefaultComponent tree fuel parent = some start ∧
      ∀ g, start = some g → rawWalkEnds t Direction.Forwards n g = true := by
    unfold getDefaultComponent
    simp only [ht]
    cases hd : t.getDefaultComponent parent with
    | none => exact ⟨none, rfl, fun g hg => by cases hg⟩
    | some d =>
      have hwalk := hfinite d hd
      simp only []
      by_cases hw : tree.getWantsKeyboardFocus d = true
      · rw [if_pos hw]
        refine ⟨some d, rfl, ?_⟩
        intro g hg
        cases hg
        exact hwalk
      · rw [if_neg hw]
        obtain ⟨r, hr⟩ := findComponent_terminates tree t parent Direction.Forwards n fuel d
          hwalk hfuel
        refine ⟨r, hr, ?_⟩
        intro g hg
        subst hg
        cases n with
        | zero => simp [rawWalkEnds] at hwalk
        | succ m =>
          exact rawWalkEnds_succ t Direction.Forwards m g
            (findComponent_result_walk tree t parent Direction.Forwards fuel m d g hwalk hr)
  obtain ⟨start, hstart, hwalk⟩ := hdef
  cases start with
  | none =>
    refine ⟨[], none, ?_, hstart, by simp, rfl, List.chain'_nil⟩
    unfold getAllComponents
    simp [ht, hstart, getAllLoop]
  | some g =>
    obtain ⟨l, hl, hchain⟩ := getAllLoop_chain tree t fuel parent n fuel g [] (hwalk g rfl)
      hfuel hfuel
    refine ⟨g :: l, some g, ?_, hstart, by simp, rfl, hchain⟩
    unfold getAllComponents
    simp only [ht, hstart]
    rw [hl]
    rfl

/-- C17 at the tree with raw order 1, 2, 3, 4 and raw default 1, whose raw
walk from 1 ends within 4 steps: the list is `[2, 4]`, the default is 2, and
`findComponent` from 2 returns 4. -/
theorem getAllComponents_anchored_witness :
    getAllComponents headTree 4 0 = some [2, 4] ∧
    getDefaultComponent headTree 4 0 = some (some 2) ∧
    List.Chain' (fun a b =>
      findComponent headTree headTraverser 4 a 0 Direction.Forwards = some (some b)) [2, 4] := by
  obtain ⟨all, start, hall, _, _, _, hchain⟩ :=
    getAllComponents_anchored headTree headTraverser 0 4 4 rfl
      (by
        intro d hd
        have hd2 : 1 = d := Option.some.inj hd
        subst hd2
        decide)
      (le_refl 4)
  have e1 : getAllComponents headTree 4 0 = some [2, 4] := by decide
  have hA : all = [2, 4] := Option.some.inj (hall.symm.trans e1)
  subst hA
  exact ⟨e1, by decide, hchain⟩

/-- C18: when the traverser of `parent` is list-ordered over a duplicate-free
`L`, `getAllComponents parent` returns for every fuel above the length of `L`;
the list it returns has no node twice, is empty when there is no raw default,
and otherwise has at most one element for the raw default `d` and one for each
node after `d` in `L`, which for `d` in `L` is the number of nodes of `L` from
`d` onward. -/
theorem getAllComponents_no_repeats (tree : ComponentTree) (t : ComponentTraverser)
    (L : List Component) (parent : Component)
    (ht : tree.createFocusTraverser parent = some t) (hord : ListOrdered t L) :
    ∀ fuel, L.length < fuel →
      ∃ all, getAllComponents tree fuel parent = some all ∧ all.Nodup ∧
        (t.getDefaultComponent parent = none → all = []) ∧
        (∀ d, t.getDefaultComponent parent = some d →
          all.length ≤ (nodesAfter L d).length + 1 ∧
          (d ∈ L → all.length ≤ (L.dropWhile (fun x => x != d)).length)) := by
  intro fuel hfuel
  have hall := getAllComponents_of_listOrdered tree t hord parent ht fuel hfuel
  cases hdef : t.getDefaultComponent parent with
  | none =>
    rw [hdef] at hall
    exact ⟨[], hall, List.nodup_nil, fun _ => rfl, fun d hd => by cases hd⟩
  | some d0 =>
    rw [hdef] at hall
    simp only [] at hall
    refine ⟨_, hall, ?_, (fun h => Option.noConfusion h), ?_⟩
    · by_cases hw : tree.getWantsKeyboardFocus d0 = true
      · simp only [hw, if_true]
        exact nodup_enum hord.1 _ d0
      · simp only [hw]
        exact (nodesAfter_nodup d0 hord.1).filter _
    · intro d hd
      have hdd : d0 = d := Option.some.inj hd
      subst hdd
      have hlen : ((if tree.getWantsKeyboardFocus d0 = true then [d0] else [])
            ++ (nodesAfter L d0).filter (eligible tree parent)).length
          ≤ (nodesAfter L d0).length + 1 := by
        have h1 := List.length_filter_le (eligible tree parent) (nodesAfter L d0)
        by_cases hw : tree.getWantsKeyboardFocus d0 = true
        · simp only [hw, if_true, List.length_append, List.length_singleton]
          omega
        · simp only [hw, List.length_append]
          simp only [Bool.false_eq_true, if_false, List.length_nil]
          omega
      refine ⟨hlen, ?_⟩
      intro hmem
      rw [dropWhile_eq_cons_nodesAfter hmem, List.length_cons]
      exact hlen

/-- C18 at the tree with raw order 1, 2, 3, 4 and raw default 1: the list
`[2, 4]` has no repeats and at most four elements. -/
theorem getAllComponents_no_repeats_witness :
    getAllComponents headTree 5 0 = some [2, 4] ∧ [2, 4].Nodup ∧
    [2, 4].length ≤ ([1, 2, 3, 4].dropWhile (fun x => x != 1)).length := by
  obtain ⟨all, hall, hnd, _, hlen⟩ :=
    getAllComponents_no_repeats headTree headTraverser [1, 2, 3, 4] 0 rfl
      (listTraverser_listOrdered (some 1) (by decide)) 5 (by decide)
  have e1 : getAllComponents headTree 5 0 = some [2, 4] := by decide
  have hA : all = [2, 4] := Option.some.inj (hall.symm.trans e1)
  subst hA
  exact ⟨e1, hnd, (hlen 1 rfl).2 (by decide)⟩

end juce
